import Mathlib

/-!
Shallow embedding of the azure-pim-cli core (request backend, activation
validator, scope model, expiring cache, directory object resolver, and the
role-assignment orchestrator) together with theorems checking the
natural-language specification against the code.

Machine integers are modelled as Nat (no overflow is relevant here); time
instants are Nat values (monotone clock readings); fallible code returns
Except / Option.  Network responses are parameters of the embedded
functions, so every definition is executable on concrete inputs.
-/

namespace AzPim

/-! ## JSON values (model of serde_json::Value, restricted to the shapes the
core reads and writes) -/

inductive JValue where
  | null : JValue
  | str (s : String) : JValue
  | obj (fields : List (String × JValue)) : JValue

/-- Model of serde_json's `Value` indexing (`body["key"]`): on an object it
returns the first field with that name, otherwise `Null`; indexing a
non-object returns `Null` (serde_json does not panic here, it yields a
`Value` that allows further nested nulls, as the source comments note). -/
def JValue.index (v : JValue) (key : String) : JValue :=
  match v with
  | .obj fields => (List.lookup key fields).getD .null
  | _ => .null

/-- Model of `Value::as_str`. -/
def JValue.asStr : JValue → Option String
  | .str s => some s
  | _ => none

/-- Whether an object value has a field with the given name. -/
def JValue.hasField (v : JValue) (key : String) : Bool :=
  match v with
  | .obj fields => (List.lookup key fields).isSome
  | _ => false

/-- Field names of an object value, in order. -/
def JValue.fieldNames : JValue → List String
  | .obj fields => fields.map Prod.fst
  | _ => []

/-! ## Errors of the request layer -/

/-- Error values produced by the embedded request layer.  In the source these
are `anyhow` errors; each constructor records which failure produced it and
what data the error message carries. -/
inductive ReqError where
  | transport
  | rateLimited
  | decodeFailed
  | unableToElevate (body : JValue)
  | requestFailed (status : Nat) (body : JValue)

/-! ## Activation-response validation (src/activate.rs, check_error_response) -/

/-- Embedding of `check_error_response` from src/activate.rs: succeed when
`body.error.code` is the string `RoleAssignmentExists` or
`RoleAssignmentRequestExists`; otherwise fail with an error carrying the
full body (`unable to elevate` in the source). -/
def check_error_response (body : JValue) : Except ReqError Unit :=
  if ((body.index "error").index "code").asStr = some "RoleAssignmentExists" then
    Except.ok ()
  else if ((body.index "error").index "code").asStr = some "RoleAssignmentRequestExists" then
    Except.ok ()
  else
    Except.error (ReqError.unableToElevate body)

/-- The `body.error.code` string of a response body, if any. -/
def errorCode (body : JValue) : Option String :=
  ((body.index "error").index "code").asStr

/-! ## Request backend (src/backend.rs) -/

/-- Model of what one HTTP attempt can observe: outright transport failure,
or a response with a status code and a body (`none` when the body does not
decode as JSON). -/
inductive HttpResponse where
  | transportFailure
  | response (status : Nat) (body : Option JValue)

/-- Model of the retry crate's `OperationResult`. -/
inductive AttemptOutcome where
  | ok (body : JValue)
  | retryLater (err : ReqError)
  | fatal (err : ReqError)

/-- Model of reqwest's `StatusCode::is_success` (2xx). -/
def statusIsSuccess (status : Nat) : Bool :=
  decide (200 ≤ status ∧ status < 300)

/-- Embedding of `Backend::try_request`: a transport failure retries; a 429
status retries; a body that fails to decode stops fatally; with a validator
present the validator alone decides success/failure; without one, a
non-success status stops fatally and a success status returns the body. -/
def try_request (validate : Option (Nat → JValue → Except ReqError Unit)) :
    HttpResponse → AttemptOutcome
  | .transportFailure => .retryLater .transport
  | .response status body =>
    if status = 429 then
      .retryLater .rateLimited
    else
      match body with
      | none => .fatal .decodeFailed
      | some body =>
        match validate with
        | some v =>
          match v status body with
          | .ok _ => .ok body
          | .error e => .fatal e
        | none =>
          if statusIsSuccess status then .ok body
          else .fatal (.requestFailed status body)

/-- Embedding of the retry crate's driver (`retry_with_index` as used by
`Backend::retry_request`): run the operation; `ok` and `fatal` outcomes end
the loop at once, a `retryLater` outcome consumes one delay from the delay
iterator and runs the operation again, and an exhausted delay iterator
surfaces the last retryable error.  Returns the result together with the
number of attempts that were made. -/
def retryWithDelays (op : Nat → AttemptOutcome) (delays : List Nat) (tries : Nat) :
    Except ReqError JValue × Nat :=
  match op tries with
  | .ok body => (.ok body, tries + 1)
  | .fatal e => (.error e, tries + 1)
  | .retryLater e =>
    match delays with
    | [] => (.error e, tries + 1)
    | _ :: rest => retryWithDelays op rest (tries + 1)

/-- The retry budget of `Backend::retry_request` (src/backend.rs, RETRY_COUNT):
the delay iterator is `Fixed::from(5s)` with jitter, `take(RETRY_COUNT)`. -/
def RETRY_COUNT : Nat := 10

/-- Embedding of `Backend::retry_request`: attempt `i` observes response
`resp i`; the delay list models the jittered fixed-delay iterator (its
length is what matters; `RETRY_COUNT` elements in the source). -/
def retry_request (resp : Nat → HttpResponse)
    (validate : Option (Nat → JValue → Except ReqError Unit))
    (delays : List Nat) : Except ReqError JValue × Nat :=
  retryWithDelays (fun i => try_request validate (resp i)) delays 0

/-- The validator installed on every role-activation / role-deactivation /
role-deletion PUT (`.validate(check_error_response)` in src/lib.rs): it
ignores the status code and inspects only the body. -/
def activationValidator : Option (Nat → JValue → Except ReqError Unit) :=
  some (fun _ body => check_error_response body)

/-! ## Scope (src/models/scope.rs) -/

/-- Splitting a character list at every `/` (the semantics of Rust's
`str::split('/')`: every occurrence separates, empty pieces included, and
the empty string yields one empty piece). -/
def splitSlash : List Char → List (List Char)
  | [] => [[]]
  | c :: cs =>
    let rest := splitSlash cs
    if c = '/' then [] :: rest
    else
      match rest with
      | [] => [[c]]
      | r :: rs => (c :: r) :: rs

/-- The segments of a scope path, split on `/` (Rust `str::split('/')`,
which yields leading/trailing empty segments). -/
def scopeSegments (s : String) : List String :=
  (splitSlash s.data).map (fun l => String.mk l)

/-- Model of Rust slice indexing `second.get(0..first.len())`: `some` of the
first `n` elements when the slice is long enough, otherwise `none`. -/
def sliceTo (l : List String) (n : Nat) : Option (List String) :=
  if n ≤ l.length then some (l.take n) else none

/-- Embedding of `Scope::contains`: split both paths on `/` and compare
`self`'s whole segment list against the equally long initial run of
`other`'s segments. -/
def scopeContains (a b : String) : Bool :=
  let first := scopeSegments a
  let second := scopeSegments b
  decide (some first = sliceTo second first.length)

/-! ## Convergence-wait throttle (src/lib.rs, wait_for_role_activation) -/

/-- The fixed poll interval (`WAIT_DELAY`, 5 seconds). -/
def WAIT_DELAY : Nat := 5

/-- Model of `Instant::duration_since`: the elapsed time from `earlier` to
`later`, saturating to zero when `earlier` is in fact later. -/
def durationSince (later earlier : Nat) : Nat :=
  later - earlier

/-- Embedding of the sleep computation in `wait_for_role_activation`:
`last.duration_since(current).saturating_sub(WAIT_DELAY)` (the loop sleeps
exactly when this is nonzero). -/
def waitPollSleep (last current : Nat) : Nat :=
  durationSince last current - WAIT_DELAY

/-! ## ExpiringMap (src/cache.rs) -/

/-- A stored entry of the `ExpiringMap`: the value together with its
absolute expiration instant (`Value` in src/cache.rs). -/
structure EEntry (V : Type) where
  value : V
  expiration : Nat
deriving DecidableEq

/-- Whether an entry is expired at `now` (`Value::is_expired`:
`self.expiration < Instant::now()`). -/
def EEntry.expiredAt (e : EEntry V) (now : Nat) : Bool :=
  decide (e.expiration < now)

/-- Embedding of `ExpiringMap`: the backing `HashMap` is modelled as an
association list (key, value, expiration); a single TTL `duration` is fixed
at construction.  All operations take the current instant explicitly. -/
structure ExpiringMap (K V : Type) where
  data : List (K × EEntry V)
  duration : Nat
deriving DecidableEq

/-- A fresh, empty map with the given TTL (`ExpiringMap::new`). -/
def ExpiringMap.new (K V : Type) (duration : Nat) : ExpiringMap K V :=
  { data := [], duration := duration }

/-- Embedding of `ExpiringMap::cleanup`: retain exactly the entries whose
expiration lies strictly in the future (`v.expiration > now`). -/
def ExpiringMap.cleanup (m : ExpiringMap K V) (now : Nat) : ExpiringMap K V :=
  { m with data := m.data.filter (fun kv => decide (now < kv.2.expiration)) }

/-- Embedding of `ExpiringMap::insert`: first sweep expired entries via
`cleanup`, then store the value with expiration `now + duration`
(the `HashMap` insert replaces any entry with the same key). -/
def ExpiringMap.insert [DecidableEq K] (m : ExpiringMap K V) (now : Nat) (k : K) (v : V) :
    ExpiringMap K V :=
  let m := m.cleanup now
  { m with data := (k, ⟨v, now + m.duration⟩) :: m.data.filter (fun kv => decide (kv.1 ≠ k)) }

/-- Embedding of `ExpiringMap::get`: look the key up and return the value
only when the entry is not expired; expired entries are not removed. -/
def ExpiringMap.get [DecidableEq K] (m : ExpiringMap K V) (now : Nat) (k : K) : Option V :=
  match m.data.find? (fun kv => decide (kv.1 = k)) with
  | some kv => if kv.2.expiredAt now then none else some kv.2.value
  | none => none

/-- Embedding of `ExpiringMap::contains_key` (`self.get(key).is_some()`). -/
def ExpiringMap.containsKey [DecidableEq K] (m : ExpiringMap K V) (now : Nat) (k : K) : Bool :=
  (m.get now k).isSome

/-- The backing store has no duplicate keys (invariant of the `HashMap` the
association list models). -/
def ExpiringMap.KeysNodup (m : ExpiringMap K V) : Prop :=
  (m.data.map Prod.fst).Nodup

/-- No stored entry expires exactly at the instant `now`: the operations of
one run are not racing the precise expiry instant of an entry.  (`Instant`
has nanosecond resolution; an entry whose expiration coincides exactly with
the very instant of the call is a measure-zero boundary this model excludes
by hypothesis.) -/
def ExpiringMap.FreshAt (m : ExpiringMap K V) (now : Nat) : Prop :=
  ∀ e ∈ m.data, e.2.expiration ≠ now

/-! ## Directory objects (src/graph.rs) -/

/-- The kind of a directory principal (src/graph.rs, `PrincipalType`). -/
inductive PrincipalType where
  | User
  | Group
  | ServicePrincipal
deriving DecidableEq

/-- A resolved directory principal (src/graph.rs, `Object`). -/
structure Object where
  id : String
  display_name : String
  upn : Option String
  object_type : PrincipalType
deriving DecidableEq

/-- Splitting a list into consecutive chunks of at most `n` elements
(model of Rust's `slice::chunks(n)` for `n ≥ 1`). -/
def chunksOf (n : Nat) : List α → List (List α)
  | [] => []
  | x :: xs => (x :: xs.take (n - 1)) :: chunksOf n (xs.drop (n - 1))
termination_by l => l.length
decreasing_by
  simp only [List.length_drop, List.length_cons]
  omega

/-- Caching one resolved directory object keyed by its id
(`cache.insert(entry.id.clone(), Some(entry))` in `get_objects_by_ids`). -/
def cacheObject (now : Nat) (c : ExpiringMap String (Option Object)) (o : Object) :
    ExpiringMap String (Option Object) :=
  c.insert now o.id (some o)

/-- The result-building loop body of `get_objects_by_ids`: for one requested
id, a cache hit on a resolved object adds it to the result map keyed by the
object's id; a cached `none` tombstone adds nothing; a cache miss records a
`none` tombstone. -/
def resolveStep (now : Nat)
    (acc : List (String × Object) × ExpiringMap String (Option Object)) (id : String) :
    List (String × Object) × ExpiringMap String (Option Object) :=
  match acc.2.get now id with
  | some (some o) => (acc.1 ++ [(o.id, o)], acc.2)
  | some none => acc
  | none => (acc.1, acc.2.insert now id none)

/-- Embedding of `get_objects_by_ids` (src/graph.rs).  The directory is the
function `dir`: the response for a chunk of ids resolves exactly the ids the
directory recognizes (`chunk.filterMap dir` models parsing the object list
of one `getByIds` response).  Mirrors the source: partition the requested
ids into cached and not-yet-cached, split the latter into chunks of at most
50, insert every resolved object into the cache keyed by its id, then build
the result map over the originally requested ids, inserting a `none`
tombstone for every requested id that no response resolved.  Returns the
result map (as an ordered association list, the `BTreeMap`), the updated
cache, and the chunks that were sent to the directory. -/
def get_objects_by_ids (dir : String → Option Object) (now : Nat)
    (cache : ExpiringMap String (Option Object)) (ids : List String) :
    List (String × Object) × ExpiringMap String (Option Object) × List (List String) :=
  let to_update := ids.filter (fun id => !(cache.containsKey now id))
  let chunks := chunksOf 50 to_update
  let cache1 := chunks.foldl
    (fun c chunk => (chunk.filterMap dir).foldl (cacheObject now) c)
    cache
  let final := ids.foldl (resolveStep now) ([], cache1)
  (final.1, final.2, chunks)

/-- Embedding of `group_members` (src/graph.rs), the single-group fetch.
`mem` is the directory's member list for a group (the parsed response of
`GET /groups/id/members`, in its `BTreeSet` iteration order).  On a group
cache hit the cached entries are returned and nothing else changes; on a
miss the members are fetched, each member is inserted into the object cache
only when its id is not already present there, and the member list is
recorded in the group cache.  Returns the member list and both caches. -/
def group_members (mem : String → List Object) (now : Nat)
    (gcache : ExpiringMap String (List Object))
    (ocache : ExpiringMap String (Option Object)) (id : String) :
    List Object × ExpiringMap String (List Object) × ExpiringMap String (Option Object) :=
  match gcache.get now id with
  | some entries => (entries, gcache, ocache)
  | none =>
    let results := mem id
    let ocache2 := results.foldl
      (fun c o => if (c.get now o.id).isNone then c.insert now o.id (some o) else c)
      ocache
    (results, gcache.insert now id results, ocache2)

/-- The ids of the members of a group that are themselves groups (the ids
`group_members` in src/lib.rs unions into its worklist). -/
def groupMemberIds (l : List Object) : List String :=
  (l.filter (fun o => decide (o.object_type = PrincipalType.Group))).map (fun o => o.id)

/-- Embedding of the worklist loop of `PimClient::group_members` with
`nested = true` (src/lib.rs): pop the least id from `todo` (the `BTreeSet`
`pop_first`), skip it when already in `done`, otherwise record it in
`done`, fetch its direct member list, push its group-typed members onto the
worklist and accumulate all members into the result set.  The `while` loop
of the source is modelled with explicit fuel; `none` means the fuel ran out
before the worklist emptied. -/
def group_members_nested_loop (mem : String → List Object) :
    Nat → Finset String → Finset String → Finset Object → Option (Finset Object)
  | 0, todo, _done, results => if todo = ∅ then some results else none
  | fuel + 1, todo, done, results =>
    if h : todo.Nonempty then
      let id := todo.min' h
      let todo' := todo.erase id
      if id ∈ done then
        group_members_nested_loop mem fuel todo' done results
      else
        group_members_nested_loop mem fuel
          (todo' ∪ (groupMemberIds (mem id)).toFinset)
          (insert id done)
          (results ∪ (mem id).toFinset)
    else some results

/-- `PimClient::group_members` with `nested = true`: run the worklist loop
from the starting group id with empty `done` and result sets. -/
def group_members_nested (mem : String → List Object) (fuel : Nat) (start : String) :
    Option (Finset Object) :=
  group_members_nested_loop mem fuel {start} ∅ ∅

/-- The group ids reachable from the starting group through group-typed
membership edges: the start itself, and the id of every group-typed member
of a reachable group. -/
inductive ReachableGroup (mem : String → List Object) (start : String) : String → Prop
  | base : ReachableGroup mem start start
  | step {g : String} {o : Object} : ReachableGroup mem start g → o ∈ mem g →
      o.object_type = PrincipalType.Group → ReachableGroup mem start o.id

/-- Group ids the worklist loop can still process from state
`(todo, done)`: the not-yet-done ids on the worklist, closed under
group-typed membership edges that do not land in `done`. -/
inductive NReach (mem : String → List Object) (todo done : Finset String) : String → Prop
  | base {g : String} : g ∈ todo → g ∉ done → NReach mem todo done g
  | step {g : String} {o : Object} : NReach mem todo done g → o ∈ mem g →
      o.object_type = PrincipalType.Group → o.id ∉ done → NReach mem todo done o.id

/-! ## Role-assignment orchestrator (src/lib.rs) -/

/-- A PIM role assignment (src/models/roles.rs, `RoleAssignment`). -/
structure RoleAssignment where
  role : String
  scope : String
  scope_name : Option String
  role_definition_id : String
  principal_id : Option String
  principal_type : Option String
  object : Option Object
deriving DecidableEq

/-- Outcome of one assignment inside a batch (src/lib.rs,
`ActivationResult`). -/
inductive ActivationResult where
  | success
  | failed (assignment : RoleAssignment)

/-- Errors of the set-level orchestrator calls: the `ensure!` message for an
empty input set, or the aggregate failure listing the failed assignments
(`failed to activate/deactivate the following roles` followed by each
failed `role@scope` in the source; the constructor carries the verb and the
exact failed set the message enumerates). -/
inductive SetOpError where
  | message (s : String)
  | failedRoles (verb : String) (failed : Finset RoleAssignment)

/-- Whether a per-assignment call succeeded. -/
def callOk (r : Except ReqError Unit) : Bool :=
  match r with
  | .ok _ => true
  | .error _ => false

/-- Embedding of `PimClient::activate_role_assignment_set`: reject an empty
set with `no roles specified`; otherwise run the per-assignment activation
call for every assignment (`join_all`: every call runs to completion, one
failing does not stop the others), discard successes, collect failures, and
fail with the aggregate error exactly when some assignment failed.  `call`
is the outcome of `activate_role_assignment` for each assignment. -/
def activate_role_assignment_set (call : RoleAssignment → Except ReqError Unit)
    (assignments : Finset RoleAssignment) : Except SetOpError Unit :=
  if assignments = ∅ then
    Except.error (.message "no roles specified")
  else
    let failed := assignments.filter (fun x => callOk (call x) = false)
    if failed = ∅ then Except.ok ()
    else Except.error (.failedRoles "activate" failed)

/-- Embedding of `PimClient::deactivate_role_assignment_set`, identical in
structure to the activation set call but driven by the per-assignment
deactivation call. -/
def deactivate_role_assignment_set (call : RoleAssignment → Except ReqError Unit)
    (assignments : Finset RoleAssignment) : Except SetOpError Unit :=
  if assignments = ∅ then
    Except.error (.message "no roles specified")
  else
    let failed := assignments.filter (fun x => callOk (call x) = false)
    if failed = ∅ then Except.ok ()
    else Except.error (.failedRoles "deactivate" failed)

/-! ## Activation and deactivation request bodies (src/lib.rs) -/

/-- The JSON body of the activation PUT built by
`PimClient::activate_role_assignment`: `requestType` is `SelfActivate`, the
caller-supplied justification is sent, and `scheduleInfo.expiration` holds
the formatted duration. -/
def activationRequestBody (principalId roleDefinitionId justification durationStr : String) :
    JValue :=
  .obj [("properties", .obj
    [ ("principalId", .str principalId)
    , ("roleDefinitionId", .str roleDefinitionId)
    , ("requestType", .str "SelfActivate")
    , ("justification", .str justification)
    , ("scheduleInfo", .obj
        [("expiration", .obj
          [ ("duration", .str durationStr)
          , ("type", .str "AfterDuration")])])])]

/-- The JSON body of the deactivation PUT built by
`PimClient::deactivate_role_assignment`: `requestType` is `SelfDeactivate`,
there is no `scheduleInfo`, and a fixed `justification` string
(`Deactivation request`) is sent. -/
def deactivationRequestBody (principalId roleDefinitionId : String) : JValue :=
  .obj [("properties", .obj
    [ ("principalId", .str principalId)
    , ("roleDefinitionId", .str roleDefinitionId)
    , ("requestType", .str "SelfDeactivate")
    , ("justification", .str "Deactivation request")])]

/-! ## Concrete fixtures used to evaluate the embedded code -/

/-- A sample assignment whose activation call succeeds in the fixtures. -/
def exAssignment1 : RoleAssignment :=
  { role := "Owner", scope := "/subscriptions/sub1", scope_name := none
    role_definition_id := "rd1", principal_id := none, principal_type := none
    object := none }

/-- A sample assignment whose activation call fails in the fixtures. -/
def exAssignment2 : RoleAssignment :=
  { role := "Reader", scope := "/subscriptions/sub2", scope_name := none
    role_definition_id := "rd2", principal_id := none, principal_type := none
    object := none }

/-- A per-assignment call that succeeds exactly on `Owner` assignments. -/
def exCall : RoleAssignment → Except ReqError Unit :=
  fun x => if x.role = "Owner" then Except.ok () else Except.error ReqError.transport

/-- A 400 response body carrying the benign `RoleAssignmentExists` error
code. -/
def exBenignBody : JValue :=
  JValue.obj [("error", JValue.obj [("code", JValue.str "RoleAssignmentExists")])]

/-- A 400 response body carrying some other provider error code. -/
def exOtherBody : JValue :=
  JValue.obj [("error", JValue.obj [("code", JValue.str "InsufficientPermissions")])]

/-- A sample directory user that is a member of the fixture group and whose
id is already tombstoned in the object cache. -/
def exObjU1 : Object :=
  { id := "u1", display_name := "User One", upn := none
    object_type := PrincipalType.User }

/-- A sample directory user not yet present in the object cache. -/
def exObjU3 : Object :=
  { id := "u3", display_name := "User Three", upn := none
    object_type := PrincipalType.User }

/-- An object cache holding a `none` tombstone for id `u1`, recorded at
instant 0 with a 600-second TTL. -/
def exOCache : ExpiringMap String (Option Object) :=
  (ExpiringMap.new String (Option Object) 600).insert 0 "u1" none

/-- A directory in which group `g` has the two fixture users as members. -/
def exMem : String → List Object :=
  fun s => if s = "g" then [exObjU1, exObjU3] else []

/-- Fixture group `A` of the cyclic membership graph. -/
def exGroupA : Object :=
  { id := "A", display_name := "Group A", upn := none
    object_type := PrincipalType.Group }

/-- Fixture group `B` of the cyclic membership graph. -/
def exGroupB : Object :=
  { id := "B", display_name := "Group B", upn := none
    object_type := PrincipalType.Group }

/-- Fixture user member of group `A`. -/
def exUserC : Object :=
  { id := "c", display_name := "User C", upn := none
    object_type := PrincipalType.User }

/-- Fixture user member of group `B`. -/
def exUserD : Object :=
  { id := "d", display_name := "User D", upn := none
    object_type := PrincipalType.User }

/-- A cyclic group-membership directory: group `A` contains group `B` and
user `c`; group `B` contains group `A` and user `d`. -/
def exCyclicMem : String → List Object :=
  fun s =>
    if s = "A" then [exGroupB, exUserC]
    else if s = "B" then [exGroupA, exUserD]
    else []

/-- The group-id universe of the cyclic fixture directory. -/
def exU : Finset String := {"A", "B"}

/-- A directory user resolved by the fixture directory under id `x`. -/
def exObjX : Object :=
  { id := "x", display_name := "User X", upn := none
    object_type := PrincipalType.User }

/-- A fixture directory recognizing exactly the id `x`. -/
def exDir : String → Option Object :=
  fun s => if s = "x" then some exObjX else none

/-- An empty object cache with a 600-second TTL. -/
def exEmptyCache : ExpiringMap String (Option Object) :=
  ExpiringMap.new String (Option Object) 600

/-! # Theorems -/

/-! ## C7: scope containment is a segment-wise structural test -/

/-- C7: for all scopes `a` and `b`, `a.contains(b)` holds if and only if
the `/`-split segments of `a` equal the equally long initial run of `b`'s
segments (segment-wise equality, not a raw string comparison); in
particular `a.contains(a)` is true for every scope `a`. -/
theorem claim_c7_scope_contains (a b : String) :
    (scopeContains a b = true ↔
      (scopeSegments b).take (scopeSegments a).length = scopeSegments a)
    ∧ scopeContains a a = true := by
  have key : ∀ x y : String,
      scopeContains x y = true ↔
        (scopeSegments y).take (scopeSegments x).length = scopeSegments x := by
    intro x y
    unfold scopeContains sliceTo
    simp only [decide_eq_true_eq]
    by_cases h : (scopeSegments x).length ≤ (scopeSegments y).length
    · simp only [if_pos h, Option.some.injEq]
      exact eq_comm
    · simp only [if_neg h]
      constructor
      · intro hc
        exact absurd hc (by simp)
      · intro hc
        exfalso
        apply h
        have hlen := congrArg List.length hc
        simp only [List.length_take] at hlen
        omega
  refine ⟨key a b, (key a a).mpr ?_⟩
  exact List.take_length _

/-- C7 witness: containment evaluated on concrete scopes — an ancestor
contains its descendant, every scope contains itself, and a sibling scope
sharing only a raw string run is not contained. -/
theorem claim_c7_scope_contains_witness :
    scopeContains "/subscriptions/s" "/subscriptions/s/resourceGroups/rg" = true
    ∧ scopeContains "/subscriptions/s" "/subscriptions/s" = true
    ∧ scopeContains "/subscriptions/s" "/subscriptions/s2" = false := by
  refine ⟨?_, ?_, ?_⟩
  · exact (claim_c7_scope_contains "/subscriptions/s"
      "/subscriptions/s/resourceGroups/rg").1.mpr (by decide)
  · exact (claim_c7_scope_contains "/subscriptions/s" "/subscriptions/s").2
  · have h := (claim_c7_scope_contains "/subscriptions/s" "/subscriptions/s2").1
    cases hc : scopeContains "/subscriptions/s" "/subscriptions/s2" with
    | false => rfl
    | true => exact absurd (h.mp hc) (by decide)

/-! ## C4: the convergence-wait throttle never sleeps (code bug) -/

/-- C4 (code evaluated at the failing input): the sleep duration computed by
`wait_for_role_activation` is `last.duration_since(current)` saturatingly
minus `WAIT_DELAY`; since `last` is an instant recorded before `current`,
`duration_since` saturates to zero and the computed sleep is always zero,
so the loop never sleeps between iterations and consecutive
`list_active_role_assignments` calls can start immediately after one
another.  (The code's own comment, and the spec, intend a throttle of one
list call per `WAIT_DELAY`.) -/
theorem claim_c4_throttle_never_sleeps (last current : Nat) (h : last ≤ current) :
    waitPollSleep last current = 0 := by
  unfold waitPollSleep durationSince
  omega

/-- C4 witness: at `last = 0`, `current = 10` the computed sleep is zero. -/
theorem claim_c4_throttle_never_sleeps_witness :
    (0 : Nat) ≤ 10 ∧ waitPollSleep 0 10 = 0 :=
  ⟨by decide, claim_c4_throttle_never_sleeps 0 10 (by decide)⟩

/-! ## C9: the deactivation request body -/

/-- C9 counterexample: the claim says the deactivation request body contains
no `justification` field, but the body built by
`PimClient::deactivate_role_assignment` does contain one (with the fixed
string `Deactivation request`). -/
theorem claim_c9_counterexample :
    ((deactivationRequestBody "p" "rd").index "properties").hasField "justification" = true := by
  rfl

/-- C9 (amended): the deactivation PUT body has the same shape as the
activation request body except that `requestType` is `SelfDeactivate`,
there is no duration (no `scheduleInfo`/`expiration`), and the
`justification` field is sent with the fixed string `Deactivation request`
(rather than being omitted). -/
theorem claim_c9_deactivation_body (p rd j d : String) :
    ((deactivationRequestBody p rd).index "properties").fieldNames
      = ["principalId", "roleDefinitionId", "requestType", "justification"]
    ∧ ((activationRequestBody p rd j d).index "properties").fieldNames
      = ["principalId", "roleDefinitionId", "requestType", "justification", "scheduleInfo"]
    ∧ ((deactivationRequestBody p rd).index "properties").index "requestType"
      = JValue.str "SelfDeactivate"
    ∧ ((deactivationRequestBody p rd).index "properties").hasField "scheduleInfo" = false
    ∧ ((deactivationRequestBody p rd).index "properties").index "justification"
      = JValue.str "Deactivation request"
    ∧ ((deactivationRequestBody p rd).index "properties").index "principalId"
      = ((activationRequestBody p rd j d).index "properties").index "principalId"
    ∧ ((deactivationRequestBody p rd).index "properties").index "roleDefinitionId"
      = ((activationRequestBody p rd j d).index "properties").index "roleDefinitionId" := by
  refine ⟨rfl, rfl, rfl, rfl, rfl, ?_, ?_⟩ <;> rfl

/-! ## C2: set-level activation and deactivation -/

/-- C2: `activate_role_assignment_set` and `deactivate_role_assignment_set`
fail with `no roles specified` on an empty set; on a non-empty set every
assignment's outcome is captured independently (the aggregate result is
determined by the per-assignment outcomes over the whole set, not by a
fail-fast subset), the batch succeeds exactly when every per-assignment call
succeeded, and otherwise returns an aggregate error carrying exactly the set
of assignments whose calls failed. -/
theorem claim_c2_set_operations (call dcall : RoleAssignment → Except ReqError Unit)
    (assignments : Finset RoleAssignment) (hne : assignments ≠ ∅) :
    activate_role_assignment_set call ∅ = Except.error (.message "no roles specified")
    ∧ deactivate_role_assignment_set dcall ∅ = Except.error (.message "no roles specified")
    ∧ (activate_role_assignment_set call assignments = Except.ok () ↔
        ∀ x ∈ assignments, callOk (call x) = true)
    ∧ (deactivate_role_assignment_set dcall assignments = Except.ok () ↔
        ∀ x ∈ assignments, callOk (dcall x) = true)
    ∧ (assignments.filter (fun x => callOk (call x) = false) ≠ ∅ →
        activate_role_assignment_set call assignments
          = Except.error (.failedRoles "activate"
              (assignments.filter (fun x => callOk (call x) = false))))
    ∧ (assignments.filter (fun x => callOk (dcall x) = false) ≠ ∅ →
        deactivate_role_assignment_set dcall assignments
          = Except.error (.failedRoles "deactivate"
              (assignments.filter (fun x => callOk (dcall x) = false))))
    ∧ (∀ x, x ∈ assignments.filter (fun x => callOk (call x) = false) ↔
        x ∈ assignments ∧ callOk (call x) = false) := by
  refine ⟨by simp [activate_role_assignment_set],
          by simp [deactivate_role_assignment_set], ?_, ?_, ?_, ?_, ?_⟩
  · unfold activate_role_assignment_set
    rw [if_neg hne]
    by_cases hf : assignments.filter (fun x => callOk (call x) = false) = ∅
    · rw [if_pos hf]
      simp only [true_iff]
      intro x hx
      by_contra hbad
      have : x ∈ assignments.filter (fun x => callOk (call x) = false) :=
        Finset.mem_filter.mpr ⟨hx, by simpa using hbad⟩
      simp [hf] at this
    · rw [if_neg hf]
      constructor
      · intro h
        exact absurd h (by simp)
      · intro hall
        exfalso
        apply hf
        apply Finset.filter_eq_empty_iff.mpr
        intro x hx
        simp [hall x hx]
  · unfold deactivate_role_assignment_set
    rw [if_neg hne]
    by_cases hf : assignments.filter (fun x => callOk (dcall x) = false) = ∅
    · rw [if_pos hf]
      simp only [true_iff]
      intro x hx
      by_contra hbad
      have : x ∈ assignments.filter (fun x => callOk (dcall x) = false) :=
        Finset.mem_filter.mpr ⟨hx, by simpa using hbad⟩
      simp [hf] at this
    · rw [if_neg hf]
      constructor
      · intro h
        exact absurd h (by simp)
      · intro hall
        exfalso
        apply hf
        apply Finset.filter_eq_empty_iff.mpr
        intro x hx
        simp [hall x hx]
  · intro hf
    unfold activate_role_assignment_set
    rw [if_neg hne, if_neg hf]
  · intro hf
    unfold deactivate_role_assignment_set
    rw [if_neg hne, if_neg hf]
  · intro x
    exact Finset.mem_filter

/-- C2 witness: on the concrete two-assignment set where exactly the
`Reader` assignment's call fails, the batch returns the aggregate error
naming exactly that assignment. -/
theorem claim_c2_set_operations_witness :
    ({exAssignment1, exAssignment2} : Finset RoleAssignment) ≠ ∅
    ∧ activate_role_assignment_set exCall {exAssignment1, exAssignment2}
        = Except.error (.failedRoles "activate" {exAssignment2}) := by
  have hne : ({exAssignment1, exAssignment2} : Finset RoleAssignment) ≠ ∅ := by decide
  have hf : Finset.filter (fun x => callOk (exCall x) = false)
      ({exAssignment1, exAssignment2} : Finset RoleAssignment) = {exAssignment2} := by decide
  have h := (claim_c2_set_operations exCall exCall {exAssignment1, exAssignment2} hne).2.2.2.2.1
    (by rw [hf]; decide)
  rw [hf] at h
  exact ⟨hne, h⟩

/-! ## C3: backend retry policy -/

/-- C3 counterexample: the claim caps the retry schedule at 10 attempts, but
with a transport failure on every attempt and the source's 10-element delay
iterator the backend makes 11 attempts (the initial attempt plus
`RETRY_COUNT` retries). -/
theorem claim_c3_counterexample :
    (retry_request (fun _ => HttpResponse.transportFailure) none
        (List.replicate RETRY_COUNT 5)).2 = 11
    ∧ ¬ ((retry_request (fun _ => HttpResponse.transportFailure) none
        (List.replicate RETRY_COUNT 5)).2 ≤ RETRY_COUNT) := by
  constructor
  · rfl
  · intro h
    have h11 : (retry_request (fun _ => HttpResponse.transportFailure) none
        (List.replicate RETRY_COUNT 5)).2 = 11 := rfl
    have hrc : RETRY_COUNT = 10 := rfl
    omega

/-- Attempts made by the retry driver never exceed one more than the number
of available delays. -/
theorem retryWithDelays_attempts (op : Nat → AttemptOutcome) :
    ∀ (delays : List Nat) (tries : Nat),
      (retryWithDelays op delays tries).2 ≤ tries + delays.length + 1 := by
  intro delays
  induction delays with
  | nil =>
    intro tries
    unfold retryWithDelays
    cases op tries <;> simp
  | cons d rest ih =>
    intro tries
    unfold retryWithDelays
    cases op tries with
    | ok body => simp
    | fatal e => simp
    | retryLater e =>
      simp only [List.length_cons]
      calc (retryWithDelays op rest (tries + 1)).2
          ≤ tries + 1 + rest.length + 1 := ih (tries + 1)
        _ ≤ tries + (rest.length + 1) + 1 := by omega

/-- When every attempt asks for a retry, the driver consumes all delays and
surfaces the error of the final attempt. -/
theorem retryWithDelays_all_retry (op : Nat → AttemptOutcome) (e : Nat → ReqError)
    (h : ∀ i, op i = .retryLater (e i)) :
    ∀ (delays : List Nat) (tries : Nat),
      retryWithDelays op delays tries
        = (Except.error (e (tries + delays.length)), tries + delays.length + 1) := by
  intro delays
  induction delays with
  | nil =>
    intro tries
    unfold retryWithDelays
    rw [h tries]
    simp
  | cons d rest ih =>
    intro tries
    unfold retryWithDelays
    rw [h tries]
    dsimp only
    rw [ih (tries + 1)]
    have harith : tries + 1 + rest.length = tries + (d :: rest).length := by
      simp only [List.length_cons]
      omega
    rw [harith]

/-- C3 (amended): for every request issued through the backend, a transport
failure or an HTTP 429 response causes a retry; the retry schedule is capped
at `RETRY_COUNT = 10` retries after the initial attempt (so at most 11
attempts in total), and exhausting the retries surfaces the last error as
fatal; a JSON-decode failure, or a non-success status when no validator is
supplied, is fatal on the very first attempt and is never retried. -/
theorem claim_c3_retry_policy (resp : Nat → HttpResponse)
    (validate : Option (Nat → JValue → Except ReqError Unit))
    (delays : List Nat) (s : Nat) (b : JValue) (e : Nat → ReqError) :
    (try_request validate HttpResponse.transportFailure = .retryLater .transport)
    ∧ (∀ body, try_request validate (.response 429 body) = .retryLater .rateLimited)
    ∧ (s ≠ 429 →
        try_request validate (.response s none) = .fatal .decodeFailed
        ∧ retry_request (fun _ => .response s none) validate delays
            = (Except.error ReqError.decodeFailed, 1))
    ∧ (s ≠ 429 → statusIsSuccess s = false →
        retry_request (fun _ => .response s (some b)) none delays
          = (Except.error (ReqError.requestFailed s b), 1))
    ∧ (delays.length = RETRY_COUNT →
        (retry_request resp validate delays).2 ≤ RETRY_COUNT + 1)
    ∧ (delays.length = RETRY_COUNT →
        (∀ i, try_request validate (resp i) = .retryLater (e i)) →
        retry_request resp validate delays
          = (Except.error (e RETRY_COUNT), RETRY_COUNT + 1)) := by
  refine ⟨rfl, fun body => rfl, ?_, ?_, ?_, ?_⟩
  · intro hs
    have htry : try_request validate (.response s none) = .fatal .decodeFailed := by
      simp [try_request, hs]
    refine ⟨htry, ?_⟩
    unfold retry_request retryWithDelays
    rw [htry]
  · intro hs hsucc
    have htry : try_request none (.response s (some b))
        = .fatal (.requestFailed s b) := by
      simp [try_request, hs, hsucc]
    unfold retry_request retryWithDelays
    rw [htry]
  · intro hlen
    have := retryWithDelays_attempts (fun i => try_request validate (resp i)) delays 0
    unfold retry_request
    omega
  · intro hlen hall
    have := retryWithDelays_all_retry (fun i => try_request validate (resp i)) e hall delays 0
    unfold retry_request
    rw [this]
    simp [hlen]

/-- C3 witness: the amended policy evaluated at concrete inputs (status 500
without a validator, an undecodable body, and an always-transport-failing
response with the 10-element delay list). -/
theorem claim_c3_retry_policy_witness :
    ((500 : Nat) ≠ 429)
    ∧ statusIsSuccess 500 = false
    ∧ (List.replicate RETRY_COUNT (5 : Nat)).length = RETRY_COUNT
    ∧ retry_request (fun _ => HttpResponse.response 500 (some JValue.null)) none
        (List.replicate RETRY_COUNT 5)
        = (Except.error (ReqError.requestFailed 500 JValue.null), 1)
    ∧ retry_request (fun _ => HttpResponse.transportFailure) none
        (List.replicate RETRY_COUNT 5)
        = (Except.error ReqError.transport, RETRY_COUNT + 1) := by
  refine ⟨by decide, by rfl, by simp, ?_, ?_⟩
  · exact (claim_c3_retry_policy (fun _ => HttpResponse.response 500 (some JValue.null))
      none (List.replicate RETRY_COUNT 5) 500 JValue.null (fun _ => ReqError.transport)).2.2.2.1
      (by decide) (by rfl)
  · exact (claim_c3_retry_policy (fun _ => HttpResponse.transportFailure)
      none (List.replicate RETRY_COUNT 5) 500 JValue.null (fun _ => ReqError.transport)).2.2.2.2.2
      (by simp) (fun i => rfl)

/-! ## C1: benign-conflict handling on activation and deletion PUTs -/

/-- C1: on the PUTs that create role-activation or role-deletion schedule
requests (all of which install `check_error_response` as the validator), a
400 Bad Request response whose body's `error.code` is
`RoleAssignmentExists` or `RoleAssignmentRequestExists` is treated as
success — the request layer returns `Ok` on the first attempt and no error
is surfaced — while any other 400 Bad Request response is a fatal error
(not retried) carrying the full response body for diagnostics. -/
theorem claim_c1_benign_conflict (body : JValue) (delays : List Nat) :
    ((errorCode body = some "RoleAssignmentExists"
        ∨ errorCode body = some "RoleAssignmentRequestExists") →
      try_request activationValidator (.response 400 (some body)) = .ok body
      ∧ retry_request (fun _ => .response 400 (some body)) activationValidator delays
          = (Except.ok body, 1))
    ∧ ((errorCode body ≠ some "RoleAssignmentExists"
        ∧ errorCode body ≠ some "RoleAssignmentRequestExists") →
      try_request activationValidator (.response 400 (some body))
        = .fatal (.unableToElevate body)
      ∧ retry_request (fun _ => .response 400 (some body)) activationValidator delays
          = (Except.error (ReqError.unableToElevate body), 1)) := by
  constructor
  · intro h
    have hcheck : check_error_response body = Except.ok () := by
      unfold check_error_response
      unfold errorCode at h
      rcases h with h | h
      · rw [if_pos h]
      · by_cases h1 : ((body.index "error").index "code").asStr
            = some "RoleAssignmentExists"
        · rw [if_pos h1]
        · rw [if_neg h1, if_pos h]
    have htry : try_request activationValidator (.response 400 (some body)) = .ok body := by
      simp [try_request, activationValidator, hcheck]
    refine ⟨htry, ?_⟩
    unfold retry_request retryWithDelays
    rw [htry]
  · intro h
    have hcheck : check_error_response body
        = Except.error (ReqError.unableToElevate body) := by
      unfold check_error_response
      unfold errorCode at h
      rw [if_neg h.1, if_neg h.2]
    have htry : try_request activationValidator (.response 400 (some body))
        = .fatal (.unableToElevate body) := by
      simp [try_request, activationValidator, hcheck]
    refine ⟨htry, ?_⟩
    unfold retry_request retryWithDelays
    rw [htry]

/-- C1 witness: a 400 body reporting `RoleAssignmentExists` yields `Ok` on
the first attempt; a 400 body with a different error code yields a fatal
error carrying that body. -/
theorem claim_c1_benign_conflict_witness :
    (errorCode exBenignBody = some "RoleAssignmentExists"
      ∨ errorCode exBenignBody = some "RoleAssignmentRequestExists")
    ∧ (errorCode exOtherBody ≠ some "RoleAssignmentExists"
      ∧ errorCode exOtherBody ≠ some "RoleAssignmentRequestExists")
    ∧ retry_request (fun _ => .response 400 (some exBenignBody)) activationValidator
        (List.replicate RETRY_COUNT 5) = (Except.ok exBenignBody, 1)
    ∧ retry_request (fun _ => .response 400 (some exOtherBody)) activationValidator
        (List.replicate RETRY_COUNT 5)
        = (Except.error (ReqError.unableToElevate exOtherBody), 1) := by
  refine ⟨Or.inl (by rfl), ⟨by decide, by decide⟩, ?_, ?_⟩
  · exact ((claim_c1_benign_conflict exBenignBody (List.replicate RETRY_COUNT 5)).1
      (Or.inl (by rfl))).2
  · exact ((claim_c1_benign_conflict exOtherBody (List.replicate RETRY_COUNT 5)).2
      ⟨by decide, by decide⟩).2

/-! ## ExpiringMap lemmas -/

/-- Looking up the key just inserted: visible exactly until `now + duration`
has passed. -/
theorem ExpiringMap.get_insert_self {K V : Type} [DecidableEq K]
    (m : ExpiringMap K V) (now t : Nat) (k : K) (v : V) :
    (m.insert now k v).get t k
      = if now + m.duration < t then none else some v := by
  unfold ExpiringMap.insert ExpiringMap.get ExpiringMap.cleanup
  rw [List.find?_cons_of_pos _ (by simp)]
  simp [EEntry.expiredAt]

/-- Membership in the backing store after an insert: the new entry, plus
exactly those prior entries that are not expired (strictly future
expiration, the `cleanup` criterion) and do not share the inserted key. -/
theorem ExpiringMap.mem_insert_data {K V : Type} [DecidableEq K]
    (m : ExpiringMap K V) (now : Nat) (k : K) (v : V) (e : K × EEntry V) :
    e ∈ (m.insert now k v).data ↔
      e = (k, (⟨v, now + m.duration⟩ : EEntry V))
      ∨ (e ∈ m.data ∧ now < e.2.expiration ∧ e.1 ≠ k) := by
  unfold ExpiringMap.insert ExpiringMap.cleanup
  simp only [List.mem_cons, List.mem_filter, decide_eq_true_eq]
  tauto

/-- Inserting preserves the no-duplicate-keys invariant of the backing
store. -/
theorem ExpiringMap.keysNodup_insert {K V : Type} [DecidableEq K]
    (m : ExpiringMap K V) (now : Nat) (k : K) (v : V) (h : m.KeysNodup) :
    (m.insert now k v).KeysNodup := by
  unfold ExpiringMap.KeysNodup ExpiringMap.insert ExpiringMap.cleanup at *
  simp only [List.map_cons, List.nodup_cons]
  constructor
  · intro hmem
    rw [List.mem_map] at hmem
    obtain ⟨e, he, hek⟩ := hmem
    rw [List.mem_filter] at he
    simp only [decide_eq_true_eq] at he
    exact he.2 hek
  · have h1 : (m.data.filter (fun kv => decide (now < kv.2.expiration))).Sublist m.data :=
      List.filter_sublist _
    have h2 : ((m.data.filter (fun kv => decide (now < kv.2.expiration))).filter
        (fun kv => decide (kv.1 ≠ k))).Sublist m.data :=
      (List.filter_sublist _).trans h1
    exact (h2.map Prod.fst).nodup h

/-- Inserting with a nonzero TTL preserves freshness at `now`. -/
theorem ExpiringMap.freshAt_insert {K V : Type} [DecidableEq K]
    (m : ExpiringMap K V) (now : Nat) (k : K) (v : V)
    (hdur : 0 < m.duration) (h : m.FreshAt now) :
    (m.insert now k v).FreshAt now := by
  unfold ExpiringMap.FreshAt ExpiringMap.insert ExpiringMap.cleanup at *
  intro e he
  simp only [List.mem_cons, List.mem_filter] at he
  rcases he with he | he
  · subst he
    show now + m.duration ≠ now
    omega
  · exact h e he.1.1

/-- In an association list without duplicate keys, `find?` locates a stored
entry exactly. -/
theorem find_entry_of_mem {K V : Type} [DecidableEq K] :
    ∀ (l : List (K × EEntry V)) (k : K) (e : EEntry V),
      (l.map Prod.fst).Nodup → (k, e) ∈ l →
      l.find? (fun kv => decide (kv.1 = k)) = some (k, e) := by
  intro l
  induction l with
  | nil =>
    intro k e _ hmem
    simp at hmem
  | cons hd tl ih =>
    intro k e hnodup hmem
    simp only [List.map_cons, List.nodup_cons] at hnodup
    rcases List.mem_cons.mp hmem with hmem | hmem
    · rw [← hmem]
      rw [List.find?_cons_of_pos _ (by simp)]
    · have hk : hd.1 ≠ k := by
        intro hc
        exact hnodup.1 (hc ▸ List.mem_map.mpr ⟨(k, e), hmem, rfl⟩)
      rw [List.find?_cons_of_neg _ (by simp [hk])]
      exact ih k e hnodup.2 hmem

/-- With no duplicate keys, a stored entry determines the lookup result. -/
theorem ExpiringMap.get_of_mem {K V : Type} [DecidableEq K]
    (m : ExpiringMap K V) (t : Nat) (k : K) (e : EEntry V)
    (hnodup : m.KeysNodup) (hmem : (k, e) ∈ m.data) :
    m.get t k = if e.expiredAt t then none else some e.value := by
  unfold ExpiringMap.get
  rw [find_entry_of_mem m.data k e hnodup hmem]

/-- In an association list without duplicate keys, two entries with the same
key coincide. -/
theorem entry_unique {K V : Type} [DecidableEq K]
    (l : List (K × EEntry V)) (k : K) (e1 e2 : EEntry V)
    (hnodup : (l.map Prod.fst).Nodup) (h1 : (k, e1) ∈ l) (h2 : (k, e2) ∈ l) :
    e1 = e2 := by
  have := (find_entry_of_mem l k e1 hnodup h1).symm.trans
    (find_entry_of_mem l k e2 hnodup h2)
  simpa using this

/-- Inserting one key does not change what `get` observes at the same
instant for any other key (given unique keys and no entry expiring at the
exact instant of the call). -/
theorem ExpiringMap.get_insert_of_ne {K V : Type} [DecidableEq K]
    (m : ExpiringMap K V) (now : Nat) (k k2 : K) (v : V)
    (hnodup : m.KeysNodup) (hfresh : m.FreshAt now) (hne : k2 ≠ k) :
    (m.insert now k v).get now k2 = m.get now k2 := by
  cases hfind : m.data.find? (fun kv => decide (kv.1 = k2)) with
  | none =>
    have hnone : ∀ x ∈ m.data, x.1 ≠ k2 := by
      intro x hx
      have := List.find?_eq_none.mp hfind x hx
      simpa using this
    have hnew : (m.insert now k v).data.find? (fun kv => decide (kv.1 = k2)) = none := by
      apply List.find?_eq_none.mpr
      intro x hx
      rcases (ExpiringMap.mem_insert_data m now k v x).mp hx with hx | hx
      · rw [hx]
        simpa using fun hc => hne hc.symm
      · simpa using hnone x hx.1
    unfold ExpiringMap.get
    rw [hfind, hnew]
  | some kv =>
    have hk : kv.1 = k2 := by simpa using List.find?_some hfind
    have hmem : (k2, kv.2) ∈ m.data := by
      rw [← hk]
      exact List.mem_of_find?_eq_some hfind
    have hget_old := ExpiringMap.get_of_mem m now k2 kv.2 hnodup hmem
    have hnoweq : kv.2.expiration ≠ now := hfresh (k2, kv.2) hmem
    by_cases hexp : now < kv.2.expiration
    · have hmem2 : (k2, kv.2) ∈ (m.insert now k v).data :=
        (ExpiringMap.mem_insert_data m now k v (k2, kv.2)).mpr (Or.inr ⟨hmem, hexp, hne⟩)
      have hget_new := ExpiringMap.get_of_mem (m.insert now k v) now k2 kv.2
        (ExpiringMap.keysNodup_insert m now k v hnodup) hmem2
      rw [hget_new, hget_old]
    · have hlt : kv.2.expiration < now := by omega
      have hnew : (m.insert now k v).data.find? (fun kv => decide (kv.1 = k2)) = none := by
        apply List.find?_eq_none.mpr
        intro x hx
        rcases (ExpiringMap.mem_insert_data m now k v x).mp hx with hx | hx
        · rw [hx]
          simpa using fun hc => hne hc.symm
        · simp only [decide_eq_true_eq]
          intro hxk2
          have hxmem : (k2, x.2) ∈ m.data := by
            rw [← hxk2]
            exact hx.1
          have hval := entry_unique m.data k2 x.2 kv.2 hnodup hxmem hmem
          have hcontra : now < kv.2.expiration := hval ▸ hx.2.1
          omega
      unfold ExpiringMap.get
      rw [hfind, hnew]
      simp [EEntry.expiredAt, hlt]

/-- With no duplicate keys, a lookup that yields a value has a matching
stored entry. -/
theorem ExpiringMap.mem_of_get {K V : Type} [DecidableEq K]
    (m : ExpiringMap K V) (t : Nat) (k : K) (v : V)
    (hget : m.get t k = some v) :
    ∃ e : EEntry V, (k, e) ∈ m.data ∧ e.value = v ∧ ¬ (e.expiration < t) := by
  unfold ExpiringMap.get at hget
  cases hfind : m.data.find? (fun kv => decide (kv.1 = k)) with
  | none => rw [hfind] at hget; exact absurd hget (by simp)
  | some kv =>
    rw [hfind] at hget
    have hk : kv.1 = k := by
      have := List.find?_some hfind
      simpa using this
    have hmem := List.mem_of_find?_eq_some hfind
    cases hexp : kv.2.expiredAt t with
    | true => simp [hexp] at hget
    | false =>
      simp only [hexp, Bool.false_eq_true, if_false, Option.some.injEq] at hget
      refine ⟨kv.2, ?_, hget, ?_⟩
      · rw [← hk]
        exact hmem
      · unfold EEntry.expiredAt at hexp
        simpa using hexp

/-! ## C8: the ExpiringMap contract -/

/-- C8: for the `ExpiringMap` with its single TTL fixed at construction:
inserting a key and immediately getting it returns the inserted value; once
more than the TTL has elapsed since the insertion, `get` on that key
returns `none` although the entry itself is still stored (`get` removes
nothing); every insert first sweeps the map, so the stored entries are
exactly the new entry plus the previously stored entries that survive the
sweep (strictly future expiration) — in particular every swept-away entry
had reached its expiration; and any entry visible via `get` is younger than
the TTL (at most `duration` old, counted from its insertion instant). -/
theorem claim_c8_expiring_map {K V : Type} [DecidableEq K]
    (m : ExpiringMap K V) (now : Nat) (k : K) (v : V) :
    (m.insert now k v).get now k = some v
    ∧ (∀ t, now + m.duration < t →
        (m.insert now k v).get t k = none
        ∧ (k, (⟨v, now + m.duration⟩ : EEntry V)) ∈ (m.insert now k v).data)
    ∧ (∀ e, e ∈ (m.insert now k v).data ↔
        e = (k, (⟨v, now + m.duration⟩ : EEntry V))
        ∨ (e ∈ m.data ∧ now < e.2.expiration ∧ e.1 ≠ k))
    ∧ (∀ t w, (m.insert now k v).get t k = some w → t ≤ now + m.duration) := by
  refine ⟨?_, ?_, ExpiringMap.mem_insert_data m now k v, ?_⟩
  · rw [ExpiringMap.get_insert_self]
    simp
  · intro t ht
    refine ⟨?_, ?_⟩
    · rw [ExpiringMap.get_insert_self]
      simp [ht]
    · exact (ExpiringMap.mem_insert_data m now k v _).mpr (Or.inl rfl)
  · intro t w hget
    rw [ExpiringMap.get_insert_self] at hget
    by_cases ht : now + m.duration < t
    · rw [if_pos ht] at hget
      exact absurd hget (by simp)
    · omega

/-- C8 witness: a concrete map with TTL 5, an insert at instant 0, a hit at
instant 0 and a miss (with the entry still stored) at instant 6. -/
theorem claim_c8_expiring_map_witness :
    ((ExpiringMap.new String Nat 5).insert 0 "k" 7).get 0 "k" = some 7
    ∧ (0 + (ExpiringMap.new String Nat 5).duration < 6)
    ∧ ((ExpiringMap.new String Nat 5).insert 0 "k" 7).get 6 "k" = none
    ∧ ("k", (⟨7, 0 + (ExpiringMap.new String Nat 5).duration⟩ : EEntry Nat))
        ∈ ((ExpiringMap.new String Nat 5).insert 0 "k" 7).data
    ∧ (3 : Nat) ≤ 0 + (ExpiringMap.new String Nat 5).duration := by
  have h := claim_c8_expiring_map (ExpiringMap.new String Nat 5) 0 "k" 7
  have h6 := h.2.1 6 (by decide)
  refine ⟨h.1, by decide, h6.1, h6.2, ?_⟩
  exact h.2.2.2 3 7 (by decide)

/-! ## Insert-if-absent folds over the object cache -/

/-- The step function of the member-insertion loop of `group_members`:
insert the member keyed by its id only when the id is not visible in the
object cache. -/
def insertIfAbsent (now : Nat) (c : ExpiringMap String (Option Object)) (o : Object) :
    ExpiringMap String (Option Object) :=
  if (c.get now o.id).isNone then c.insert now o.id (some o) else c

/-- Folding `insertIfAbsent` preserves the cache invariants, the TTL, and —
the frame property — the value visible at `now` for every key that was
already visible before the fold, tombstones included. -/
theorem foldl_insertIfAbsent_frame (now : Nat) :
    ∀ (l : List Object) (c : ExpiringMap String (Option Object)),
      c.KeysNodup → c.FreshAt now → 0 < c.duration →
      (l.foldl (insertIfAbsent now) c).KeysNodup
      ∧ (l.foldl (insertIfAbsent now) c).FreshAt now
      ∧ (l.foldl (insertIfAbsent now) c).duration = c.duration
      ∧ (∀ k v, c.get now k = some v → (l.foldl (insertIfAbsent now) c).get now k = some v) := by
  intro l
  induction l with
  | nil =>
    intro c hn hf hd
    exact ⟨hn, hf, rfl, fun k v h => h⟩
  | cons o rest ih =>
    intro c hn hf hd
    simp only [List.foldl_cons]
    by_cases habs : (c.get now o.id).isNone
    · have hstep : insertIfAbsent now c o = c.insert now o.id (some o) := by
        unfold insertIfAbsent
        rw [if_pos habs]
      rw [hstep]
      have hn2 := ExpiringMap.keysNodup_insert c now o.id (some o) hn
      have hf2 := ExpiringMap.freshAt_insert c now o.id (some o) hd hf
      have hdur2 : (c.insert now o.id (some o)).duration = c.duration := rfl
      obtain ⟨ha, hb, hc2, hframe⟩ := ih (c.insert now o.id (some o)) hn2 hf2 (hdur2 ▸ hd)
      refine ⟨ha, hb, hc2.trans hdur2, ?_⟩
      intro k v hv
      apply hframe
      have hkne : k ≠ o.id := by
        intro hc3
        rw [← hc3, hv] at habs
        simp at habs
      rw [ExpiringMap.get_insert_of_ne c now o.id k (some o) hn hf hkne]
      exact hv
    · have hstep : insertIfAbsent now c o = c := by
        unfold insertIfAbsent
        rw [if_neg habs]
      rw [hstep]
      exact ih c hn hf hd

/-- After folding `insertIfAbsent`, every processed member's id is visible
in the object cache. -/
theorem foldl_insertIfAbsent_covers (now : Nat) :
    ∀ (l : List Object) (c : ExpiringMap String (Option Object)),
      c.KeysNodup → c.FreshAt now → 0 < c.duration →
      ∀ o ∈ l, ((l.foldl (insertIfAbsent now) c).get now o.id).isSome := by
  intro l
  induction l with
  | nil =>
    intro c _ _ _ o ho
    simp at ho
  | cons o1 rest ih =>
    intro c hn hf hd o ho
    simp only [List.foldl_cons]
    rcases List.mem_cons.mp ho with ho | ho
    · by_cases habs : (c.get now o1.id).isNone
      · have hstep : insertIfAbsent now c o1 = c.insert now o1.id (some o1) := by
          unfold insertIfAbsent
          rw [if_pos habs]
        rw [hstep]
        have hn2 := ExpiringMap.keysNodup_insert c now o1.id (some o1) hn
        have hf2 := ExpiringMap.freshAt_insert c now o1.id (some o1) hd hf
        have hget : (c.insert now o1.id (some o1)).get now o1.id = some (some o1) := by
          rw [ExpiringMap.get_insert_self]
          simp
        have hframe := (foldl_insertIfAbsent_frame now rest
          (c.insert now o1.id (some o1)) hn2 hf2 hd).2.2.2
        rw [ho, hframe o1.id (some o1) hget]
        rfl
      · have hstep : insertIfAbsent now c o1 = c := by
          unfold insertIfAbsent
          rw [if_neg habs]
        rw [hstep]
        cases hv : c.get now o1.id with
        | none => rw [hv] at habs; simp at habs
        | some v =>
          have hframe := (foldl_insertIfAbsent_frame now rest c hn hf hd).2.2.2
          rw [ho, hframe o1.id v hv]
          rfl
    · by_cases habs : (c.get now o1.id).isNone
      · have hstep : insertIfAbsent now c o1 = c.insert now o1.id (some o1) := by
          unfold insertIfAbsent
          rw [if_pos habs]
        rw [hstep]
        have hn2 := ExpiringMap.keysNodup_insert c now o1.id (some o1) hn
        have hf2 := ExpiringMap.freshAt_insert c now o1.id (some o1) hd hf
        exact ih (c.insert now o1.id (some o1)) hn2 hf2 hd o ho
      · have hstep : insertIfAbsent now c o1 = c := by
          unfold insertIfAbsent
          rw [if_neg habs]
        rw [hstep]
        exact ih c hn hf hd o ho

/-! ## C10: group_members leaves existing object-cache entries unchanged -/

/-- C10: when `group_members` fetches a group's direct member list, it
inserts each member into the shared object cache only if that member's id
is not already visible there; every object-cache entry visible before the
call — including a `none` tombstone previously recorded for an
unresolvable id — is left unchanged by the call (same value visible after),
and on a group-cache hit the object cache is untouched entirely.  After a
fetch, every member's id is present in the object cache. -/
theorem claim_c10_group_members_frame (mem : String → List Object) (now : Nat)
    (gcache : ExpiringMap String (List Object))
    (ocache : ExpiringMap String (Option Object)) (id : String)
    (hnodup : ocache.KeysNodup) (hfresh : ocache.FreshAt now)
    (hdur : 0 < ocache.duration) :
    (∀ k v, ocache.get now k = some v →
      (group_members mem now gcache ocache id).2.2.get now k = some v)
    ∧ (∀ o ∈ mem id, gcache.get now id = none →
        ((group_members mem now gcache ocache id).2.2.get now o.id).isSome)
    ∧ (∀ entries, gcache.get now id = some entries →
        (group_members mem now gcache ocache id).2.2 = ocache) := by
  unfold group_members
  cases hg : gcache.get now id with
  | some entries =>
    refine ⟨fun k v hv => hv, ?_, fun _ _ => rfl⟩
    intro o _ hnone
    exact absurd hnone (by simp)
  | none =>
    refine ⟨?_, ?_, ?_⟩
    · intro k v hv
      exact (foldl_insertIfAbsent_frame now (mem id) ocache hnodup hfresh hdur).2.2.2 k v hv
    · intro o ho _
      exact foldl_insertIfAbsent_covers now (mem id) ocache hnodup hfresh hdur o ho
    · intro entries hsome
      exact absurd hsome (by simp)

/-- C10 witness: with a tombstone for `u1` recorded in the object cache and
group `g` containing members `u1` and `u3`, fetching `g` leaves the `u1`
tombstone visible unchanged and makes `u3` present. -/
theorem claim_c10_group_members_frame_witness :
    exOCache.KeysNodup
    ∧ exOCache.FreshAt 0
    ∧ 0 < exOCache.duration
    ∧ exOCache.get 0 "u1" = some none
    ∧ (group_members exMem 0 (ExpiringMap.new String (List Object) 600)
        exOCache "g").2.2.get 0 "u1" = some none
    ∧ ((group_members exMem 0 (ExpiringMap.new String (List Object) 600)
        exOCache "g").2.2.get 0 "u3").isSome := by
  have hn : exOCache.KeysNodup := by
    unfold ExpiringMap.KeysNodup
    decide
  have hf : exOCache.FreshAt 0 := by
    unfold ExpiringMap.FreshAt
    decide
  have hd : 0 < exOCache.duration := by decide
  have h := claim_c10_group_members_frame exMem 0
    (ExpiringMap.new String (List Object) 600) exOCache "g" hn hf hd
  refine ⟨hn, hf, hd, by decide, ?_, ?_⟩
  · exact h.1 "u1" none (by decide)
  · have hmem : exObjU3 ∈ exMem "g" := by decide
    exact h.2.1 exObjU3 hmem (by decide)

/-! ## Worklist lemmas for nested group expansion -/

/-- The worklist loop on an empty worklist stops with the accumulated
results, whatever the fuel. -/
theorem nested_loop_empty (mem : String → List Object) (fuel : Nat)
    (done : Finset String) (results : Finset Object) :
    group_members_nested_loop mem fuel ∅ done results = some results := by
  cases fuel with
  | zero => simp [group_members_nested_loop]
  | succ n =>
    unfold group_members_nested_loop
    rw [dif_neg (by simp)]

/-- One unfolding of the worklist loop on a nonempty worklist. -/
theorem nested_loop_succ (mem : String → List Object) (fuel : Nat)
    (todo done : Finset String) (results : Finset Object) (h : todo.Nonempty) :
    group_members_nested_loop mem (fuel + 1) todo done results
      = if todo.min' h ∈ done
        then group_members_nested_loop mem fuel (todo.erase (todo.min' h)) done results
        else group_members_nested_loop mem fuel
          ((todo.erase (todo.min' h)) ∪ (groupMemberIds (mem (todo.min' h))).toFinset)
          (insert (todo.min' h) done)
          (results ∪ (mem (todo.min' h)).toFinset) := by
  conv_lhs => unfold group_members_nested_loop
  rw [dif_pos h]

/-- Nothing is processable from an empty worklist. -/
theorem nreach_empty (mem : String → List Object) (done : Finset String) (g : String) :
    ¬ NReach mem ∅ done g := by
  intro h
  induction h with
  | base hg _ => simp at hg
  | step _ _ _ _ ih => exact ih

/-- Erasing an already-done id from the worklist does not change what is
processable. -/
theorem nreach_erase_done (mem : String → List Object) (todo done : Finset String)
    (id : String) (hid : id ∈ done) :
    ∀ x, NReach mem (todo.erase id) done x ↔ NReach mem todo done x := by
  intro x
  constructor
  · intro h
    induction h with
    | base hg hgd => exact NReach.base (Finset.mem_of_mem_erase hg) hgd
    | step _ hmem htype hdone ih => exact NReach.step ih hmem htype hdone
  · intro h
    induction h with
    | base hg hgd =>
      refine NReach.base (Finset.mem_erase.mpr ⟨?_, hg⟩) hgd
      intro hc
      rw [hc] at hgd
      exact hgd hid
    | step _ hmem htype hdone ih => exact NReach.step ih hmem htype hdone

/-- Processing the id `id` (moving it from the worklist to `done`, pushing
its group-typed members): what is processable afterwards is exactly what was
processable before, minus `id` itself. -/
theorem nreach_process (mem : String → List Object) (todo done : Finset String)
    (id : String) (hid_todo : id ∈ todo) (hid_done : id ∉ done) :
    ∀ x, NReach mem todo done x ↔
      (x = id ∨ NReach mem ((todo.erase id) ∪ (groupMemberIds (mem id)).toFinset)
        (insert id done) x) := by
  intro x
  constructor
  · intro h
    induction h with
    | base hg hgd =>
      rename_i g
      by_cases hgi : g = id
      · exact Or.inl hgi
      · refine Or.inr (NReach.base ?_ ?_)
        · exact Finset.mem_union_left _ (Finset.mem_erase.mpr ⟨hgi, hg⟩)
        · rw [Finset.mem_insert]
          push_neg
          exact ⟨hgi, hgd⟩
    | step hre hmem htype hdone ih =>
      rename_i g o
      by_cases hoi : o.id = id
      · exact Or.inl hoi
      · rcases ih with hgi | hre2
        · subst hgi
          refine Or.inr (NReach.base ?_ ?_)
          · apply Finset.mem_union_right
            rw [List.mem_toFinset]
            unfold groupMemberIds
            rw [List.mem_map]
            exact ⟨o, List.mem_filter.mpr ⟨hmem, by simp [htype]⟩, rfl⟩
          · rw [Finset.mem_insert]
            push_neg
            exact ⟨hoi, hdone⟩
        · refine Or.inr (NReach.step hre2 hmem htype ?_)
          rw [Finset.mem_insert]
          push_neg
          exact ⟨hoi, hdone⟩
  · intro h
    rcases h with rfl | h
    · exact NReach.base hid_todo hid_done
    · induction h with
      | base hg hgd =>
        rename_i g
        rw [Finset.mem_insert] at hgd
        push_neg at hgd
        rcases Finset.mem_union.mp hg with hg | hg
        · exact NReach.base (Finset.mem_of_mem_erase hg) hgd.2
        · rw [List.mem_toFinset] at hg
          unfold groupMemberIds at hg
          rw [List.mem_map] at hg
          obtain ⟨o, ho, hoid⟩ := hg
          rw [List.mem_filter] at ho
          have htype : o.object_type = PrincipalType.Group := by
            have := ho.2
            simpa using this
          have hbase : NReach mem todo done id := NReach.base hid_todo hid_done
          have := NReach.step hbase ho.1 htype (hoid ▸ hgd.2)
          rw [hoid] at this
          exact this
      | step _ hmem htype hdone ih =>
        rw [Finset.mem_insert] at hdone
        push_neg at hdone
        exact NReach.step ih hmem htype hdone.2

/-- The ids the loop pushes for a group lie in the universe `U` whenever the
group itself does. -/
theorem groupMemberIds_subset (mem : String → List Object) (U : Finset String)
    (hclosed : ∀ g ∈ U, ∀ o ∈ mem g, o.object_type = PrincipalType.Group → o.id ∈ U)
    (id : String) (hid : id ∈ U) :
    (groupMemberIds (mem id)).toFinset ⊆ U := by
  intro g hg
  rw [List.mem_toFinset] at hg
  unfold groupMemberIds at hg
  rw [List.mem_map] at hg
  obtain ⟨o, ho, hoid⟩ := hg
  rw [List.mem_filter] at ho
  have htype : o.object_type = PrincipalType.Group := by
    have := ho.2
    simpa using this
  exact hoid ▸ hclosed id hid o ho.1 htype

/-- Main loop invariant of the nested group expansion: with fuel at least
`(U.card - done.card) * (U.card + 1) + todo.card`, the worklist loop
terminates, and its result is the accumulated results together with the
members of every group still processable from `(todo, done)`. -/
theorem nested_loop_spec (mem : String → List Object) (U : Finset String)
    (hclosed : ∀ g ∈ U, ∀ o ∈ mem g, o.object_type = PrincipalType.Group → o.id ∈ U) :
    ∀ (fuel : Nat) (todo done : Finset String) (results : Finset Object),
      todo ⊆ U → done ⊆ U →
      (U.card - done.card) * (U.card + 1) + todo.card ≤ fuel →
      ∃ res, group_members_nested_loop mem fuel todo done results = some res
        ∧ ∀ o : Object, o ∈ res ↔
            o ∈ results ∨ ∃ g, NReach mem todo done g ∧ o ∈ mem g := by
  intro fuel
  induction fuel with
  | zero =>
    intro todo done results htodo hdone hfuel
    have htcard : todo.card = 0 := by omega
    have htempty : todo = ∅ := Finset.card_eq_zero.mp htcard
    subst htempty
    refine ⟨results, nested_loop_empty mem 0 done results, ?_⟩
    intro o
    constructor
    · exact Or.inl
    · rintro (h | ⟨g, hg, _⟩)
      · exact h
      · exact absurd hg (nreach_empty mem done g)
  | succ fuel ih =>
    intro todo done results htodo hdone hfuel
    by_cases hne : todo.Nonempty
    · have hid_todo : todo.min' hne ∈ todo := Finset.min'_mem todo hne
      have hid_U : todo.min' hne ∈ U := htodo hid_todo
      have htpos : 0 < todo.card := Finset.card_pos.mpr hne
      rw [nested_loop_succ mem fuel todo done results hne]
      by_cases hid_done : todo.min' hne ∈ done
      · rw [if_pos hid_done]
        have hmeasure : (U.card - done.card) * (U.card + 1)
            + (todo.erase (todo.min' hne)).card ≤ fuel := by
          rw [Finset.card_erase_of_mem hid_todo]
          omega
        obtain ⟨res, hres, hiff⟩ := ih (todo.erase (todo.min' hne)) done results
          ((Finset.erase_subset _ _).trans htodo) hdone hmeasure
        refine ⟨res, hres, ?_⟩
        intro o
        rw [hiff o]
        simp only [nreach_erase_done mem todo done (todo.min' hne) hid_done]
      · rw [if_neg hid_done]
        have hGsub := groupMemberIds_subset mem U hclosed (todo.min' hne) hid_U
        have htodo2 : (todo.erase (todo.min' hne))
            ∪ (groupMemberIds (mem (todo.min' hne))).toFinset ⊆ U :=
          Finset.union_subset ((Finset.erase_subset _ _).trans htodo) hGsub
        have hdone2 : insert (todo.min' hne) done ⊆ U :=
          Finset.insert_subset hid_U hdone
        have hdcard : done.card < U.card := by
          have h1 : (insert (todo.min' hne) done).card = done.card + 1 :=
            Finset.card_insert_of_not_mem hid_done
          have h2 := Finset.card_le_card hdone2
          omega
        have hmeasure : (U.card - (insert (todo.min' hne) done).card) * (U.card + 1)
            + ((todo.erase (todo.min' hne))
                ∪ (groupMemberIds (mem (todo.min' hne))).toFinset).card ≤ fuel := by
          rw [Finset.card_insert_of_not_mem hid_done]
          have hsplit : (U.card - done.card) * (U.card + 1)
              = (U.card - (done.card + 1)) * (U.card + 1) + (U.card + 1) := by
            have hstep : U.card - done.card = (U.card - (done.card + 1)) + 1 := by omega
            rw [hstep, add_mul, one_mul]
          have hunion : ((todo.erase (todo.min' hne))
              ∪ (groupMemberIds (mem (todo.min' hne))).toFinset).card
              ≤ (todo.card - 1) + U.card := by
            have h1 := Finset.card_union_le (todo.erase (todo.min' hne))
              ((groupMemberIds (mem (todo.min' hne))).toFinset)
            have h2 := Finset.card_le_card hGsub
            have h3 : (todo.erase (todo.min' hne)).card = todo.card - 1 :=
              Finset.card_erase_of_mem hid_todo
            omega
          omega
        obtain ⟨res, hres, hiff⟩ := ih _ _ _ htodo2 hdone2 hmeasure
        refine ⟨res, hres, ?_⟩
        intro o
        rw [hiff o]
        simp only [Finset.mem_union, List.mem_toFinset]
        constructor
        · rintro ((h | h) | ⟨g, hg, ho⟩)
          · exact Or.inl h
          · exact Or.inr ⟨todo.min' hne,
              (nreach_process mem todo done (todo.min' hne) hid_todo hid_done _).mpr
                (Or.inl rfl), h⟩
          · exact Or.inr ⟨g,
              (nreach_process mem todo done (todo.min' hne) hid_todo hid_done g).mpr
                (Or.inr hg), ho⟩
        · rintro (h | ⟨g, hg, ho⟩)
          · exact Or.inl (Or.inl h)
          · rcases (nreach_process mem todo done (todo.min' hne) hid_todo hid_done g).mp hg
              with hgid | hg2
            · subst hgid
              exact Or.inl (Or.inr ho)
            · exact Or.inr ⟨g, hg2, ho⟩
    · have htempty : todo = ∅ := Finset.not_nonempty_iff_eq_empty.mp hne
      subst htempty
      refine ⟨results, nested_loop_empty mem (fuel + 1) done results, ?_⟩
      intro o
      constructor
      · exact Or.inl
      · rintro (h | ⟨g, hg, _⟩)
        · exact h
        · exact absurd hg (nreach_empty mem done g)

/-- From the initial worklist `{start}` with nothing done, the processable
groups are exactly those reachable from `start`. -/
theorem nreach_start_iff (mem : String → List Object) (start : String) (g : String) :
    NReach mem {start} ∅ g ↔ ReachableGroup mem start g := by
  constructor
  · intro h
    induction h with
    | base hg _ =>
      rw [Finset.mem_singleton] at hg
      rw [hg]
      exact ReachableGroup.base
    | step _ hmem htype _ ih => exact ReachableGroup.step ih hmem htype
  · intro h
    induction h with
    | base => exact NReach.base (Finset.mem_singleton_self start) (Finset.not_mem_empty start)
    | step _ hmem htype ih => exact NReach.step ih hmem htype (Finset.not_mem_empty _)

/-! ## C6: nested group expansion terminates on cyclic graphs -/

/-- C6: for every starting group id in the finite universe `U` of directory
group ids (closed under group-typed membership), `group_members` with
`nested = true` terminates — even on a cyclic membership graph — with fuel
`(U.card + 1)²` bounding the number of loop iterations, because `done` only
grows within `U` and already-done ids are skipped; the returned set is
exactly the union of the member lists of every group reachable from the
start, each member occurring once (the result is a set). -/
theorem claim_c6_nested_group_members (mem : String → List Object) (U : Finset String)
    (start : String) (hstart : start ∈ U)
    (hclosed : ∀ g ∈ U, ∀ o ∈ mem g, o.object_type = PrincipalType.Group → o.id ∈ U) :
    ∃ res, group_members_nested mem ((U.card + 1) * (U.card + 1)) start = some res
      ∧ ∀ o : Object, o ∈ res ↔ ∃ g, ReachableGroup mem start g ∧ o ∈ mem g := by
  have hfuel : (U.card - (∅ : Finset String).card) * (U.card + 1)
      + ({start} : Finset String).card ≤ (U.card + 1) * (U.card + 1) := by
    simp only [Finset.card_empty, Finset.card_singleton, Nat.sub_zero]
    have h3 : (U.card + 1) * (U.card + 1) = U.card * (U.card + 1) + (U.card + 1) := by ring
    omega
  obtain ⟨res, hres, hiff⟩ := nested_loop_spec mem U hclosed
    ((U.card + 1) * (U.card + 1)) {start} ∅ ∅
    (Finset.singleton_subset_iff.mpr hstart) (Finset.empty_subset U) hfuel
  refine ⟨res, hres, ?_⟩
  intro o
  rw [hiff o]
  simp only [Finset.not_mem_empty, false_or]
  constructor
  · rintro ⟨g, hg, ho⟩
    exact ⟨g, (nreach_start_iff mem start g).mp hg, ho⟩
  · rintro ⟨g, hg, ho⟩
    exact ⟨g, (nreach_start_iff mem start g).mpr hg, ho⟩

/-- C6 witness: on the cyclic fixture directory (`A` contains `B`, `B`
contains `A`) the nested expansion from `A` terminates and returns exactly
the members of the groups reachable from `A`. -/
theorem claim_c6_nested_group_members_witness :
    "A" ∈ exU
    ∧ (∀ g ∈ exU, ∀ o ∈ exCyclicMem g,
        o.object_type = PrincipalType.Group → o.id ∈ exU)
    ∧ ∃ res, group_members_nested exCyclicMem ((exU.card + 1) * (exU.card + 1)) "A" = some res
        ∧ ∀ o : Object, o ∈ res ↔ ∃ g, ReachableGroup exCyclicMem "A" g ∧ o ∈ exCyclicMem g := by
  refine ⟨by decide, by decide, ?_⟩
  exact claim_c6_nested_group_members exCyclicMem exU "A" (by decide) (by decide)

/-! ## Chunking lemmas -/

/-- Concatenating the chunks gives back the original list. -/
theorem chunksOf_join {α : Type} (n : Nat) :
    ∀ l : List α, (chunksOf n l).flatten = l := by
  have key : ∀ (k : Nat) (l : List α), l.length ≤ k → (chunksOf n l).flatten = l := by
    intro k
    induction k with
    | zero =>
      intro l hl
      have : l = [] := List.eq_nil_of_length_eq_zero (by omega)
      rw [this]
      simp [chunksOf]
    | succ k ih =>
      intro l hl
      cases l with
      | nil => simp [chunksOf]
      | cons x xs =>
        rw [chunksOf]
        simp only [List.flatten_cons, List.cons_append]
        rw [ih (xs.drop (n - 1)) (by simp only [List.length_drop]; simp at hl; omega)]
        rw [List.take_append_drop]
  intro l
  exact key l.length l le_rfl

/-- Every chunk has at most `n` elements (for positive `n`). -/
theorem chunksOf_length_le {α : Type} (n : Nat) (hn : 0 < n) :
    ∀ (l : List α) (c : List α), c ∈ chunksOf n l → c.length ≤ n := by
  have key : ∀ (k : Nat) (l : List α), l.length ≤ k →
      ∀ c ∈ chunksOf n l, c.length ≤ n := by
    intro k
    induction k with
    | zero =>
      intro l hl c hc
      have : l = [] := List.eq_nil_of_length_eq_zero (by omega)
      rw [this] at hc
      simp [chunksOf] at hc
    | succ k ih =>
      intro l hl c hc
      cases l with
      | nil => simp [chunksOf] at hc
      | cons x xs =>
        rw [chunksOf] at hc
        rcases List.mem_cons.mp hc with hc | hc
        · rw [hc]
          simp only [List.length_cons, List.length_take]
          omega
        · exact ih (xs.drop (n - 1)) (by simp only [List.length_drop]; simp at hl; omega) c hc
  intro l
  exact key l.length l le_rfl

/-- Folding the per-chunk insertions over all chunks is folding the
insertions over the concatenation of the chunks. -/
theorem foldl_chunks (dir : String → Option Object) (now : Nat) :
    ∀ (chunks : List (List String)) (c : ExpiringMap String (Option Object)),
      chunks.foldl (fun c chunk => (chunk.filterMap dir).foldl (cacheObject now) c) c
        = (chunks.flatten.filterMap dir).foldl (cacheObject now) c := by
  intro chunks
  induction chunks with
  | nil =>
    intro c
    simp
  | cons ch chs ih =>
    intro c
    simp only [List.foldl_cons, List.flatten_cons, List.filterMap_append, List.foldl_append]
    exact ih _

/-- With an id-coherent directory, the ids of the objects a chunk resolves
are exactly the recognized ids of the chunk. -/
theorem filterMap_ids (dir : String → Option Object)
    (hdir : ∀ id o, dir id = some o → o.id = id) :
    ∀ l : List String,
      (l.filterMap dir).map (fun o => o.id) = l.filter (fun id => (dir id).isSome) := by
  intro l
  induction l with
  | nil => simp
  | cons id rest ih =>
    cases h : dir id with
    | none => simp [List.filterMap_cons, h, ih]
    | some o =>
      simp only [List.filterMap_cons, h, List.map_cons, List.filter_cons]
      rw [hdir id o h, ih]
      simp

/-! ## Folding resolved objects into the cache -/

/-- A live stored entry whose key is not among the inserted ids survives the
resolved-object fold untouched. -/
theorem cacheObject_fold_entry (now : Nat) :
    ∀ (l : List Object) (c : ExpiringMap String (Option Object)) (k : String)
      (e : EEntry (Option Object)),
      (k, e) ∈ c.data → now < e.expiration → k ∉ l.map (fun o => o.id) →
      (k, e) ∈ (l.foldl (cacheObject now) c).data := by
  intro l
  induction l with
  | nil =>
    intro c k e hmem _ _
    exact hmem
  | cons o rest ih =>
    intro c k e hmem hexp hk
    simp only [List.map_cons, List.mem_cons] at hk
    push_neg at hk
    simp only [List.foldl_cons]
    apply ih
    · exact (ExpiringMap.mem_insert_data c now o.id (some o) (k, e)).mpr
        (Or.inr ⟨hmem, hexp, hk.1⟩)
    · exact hexp
    · exact hk.2

/-- The resolved-object fold preserves the cache invariants and the TTL. -/
theorem cacheObject_fold_wf (now : Nat) :
    ∀ (l : List Object) (c : ExpiringMap String (Option Object)),
      c.KeysNodup → c.FreshAt now → 0 < c.duration →
      (l.foldl (cacheObject now) c).KeysNodup
      ∧ (l.foldl (cacheObject now) c).FreshAt now
      ∧ (l.foldl (cacheObject now) c).duration = c.duration := by
  intro l
  induction l with
  | nil =>
    intro c hn hf _
    exact ⟨hn, hf, rfl⟩
  | cons o rest ih =>
    intro c hn hf hd
    simp only [List.foldl_cons]
    have hn2 := ExpiringMap.keysNodup_insert c now o.id (some o) hn
    have hf2 := ExpiringMap.freshAt_insert c now o.id (some o) hd hf
    exact ih (cacheObject now c o) hn2 hf2 hd

/-- Lookups at `now` for keys not among the inserted ids are unchanged by
the resolved-object fold. -/
theorem cacheObject_fold_frame (now : Nat) :
    ∀ (l : List Object) (c : ExpiringMap String (Option Object)),
      c.KeysNodup → c.FreshAt now → 0 < c.duration →
      ∀ k, k ∉ l.map (fun o => o.id) →
        (l.foldl (cacheObject now) c).get now k = c.get now k := by
  intro l
  induction l with
  | nil =>
    intro c _ _ _ k _
    rfl
  | cons o rest ih =>
    intro c hn hf hd k hk
    simp only [List.map_cons, List.mem_cons] at hk
    push_neg at hk
    simp only [List.foldl_cons]
    have hn2 := ExpiringMap.keysNodup_insert c now o.id (some o) hn
    have hf2 := ExpiringMap.freshAt_insert c now o.id (some o) hd hf
    rw [ih (cacheObject now c o) hn2 hf2 hd k hk.2]
    exact ExpiringMap.get_insert_of_ne c now o.id k (some o) hn hf hk.1

/-- Every object of the resolved list (with pairwise distinct ids) ends up
stored keyed by its id, with expiration `now + duration`. -/
theorem cacheObject_fold_covers (now : Nat) :
    ∀ (l : List Object) (c : ExpiringMap String (Option Object)),
      0 < c.duration → (l.map (fun o => o.id)).Nodup →
      ∀ o ∈ l, (o.id, (⟨some o, now + c.duration⟩ : EEntry (Option Object)))
        ∈ (l.foldl (cacheObject now) c).data := by
  intro l
  induction l with
  | nil =>
    intro c _ _ o ho
    simp at ho
  | cons o1 rest ih =>
    intro c hd hnodup o ho
    simp only [List.map_cons, List.nodup_cons] at hnodup
    simp only [List.foldl_cons]
    rcases List.mem_cons.mp ho with ho | ho
    · rw [ho]
      apply cacheObject_fold_entry
      · exact (ExpiringMap.mem_insert_data c now o1.id (some o1) _).mpr (Or.inl rfl)
      · show now < now + c.duration
        omega
      · exact hnodup.1
    · exact ih (cacheObject now c o1) hd hnodup.2 o ho

/-! ## The result-building fold of get_objects_by_ids -/

/-- Unfolding `resolveStep` on a resolved cache hit. -/
theorem resolveStep_hit (now : Nat) (res0 : List (String × Object))
    (c : ExpiringMap String (Option Object)) (id : String) (o : Object)
    (hg : c.get now id = some (some o)) :
    resolveStep now (res0, c) id = (res0 ++ [(o.id, o)], c) := by
  unfold resolveStep
  rw [show (res0, c).2 = c from rfl, hg]

/-- Unfolding `resolveStep` on a cached tombstone. -/
theorem resolveStep_tomb (now : Nat) (res0 : List (String × Object))
    (c : ExpiringMap String (Option Object)) (id : String)
    (hg : c.get now id = some none) :
    resolveStep now (res0, c) id = (res0, c) := by
  unfold resolveStep
  rw [show (res0, c).2 = c from rfl, hg]

/-- Unfolding `resolveStep` on a cache miss. -/
theorem resolveStep_miss (now : Nat) (res0 : List (String × Object))
    (c : ExpiringMap String (Option Object)) (id : String)
    (hg : c.get now id = none) :
    resolveStep now (res0, c) id = (res0, c.insert now id none) := by
  unfold resolveStep
  rw [show (res0, c).2 = c from rfl, hg]

/-- A live stored entry survives the result-building fold untouched. -/
theorem resolveStep_fold_entry (now : Nat) :
    ∀ (l : List String) (res0 : List (String × Object))
      (c : ExpiringMap String (Option Object)) (k : String) (e : EEntry (Option Object)),
      c.KeysNodup → c.FreshAt now → 0 < c.duration →
      (k, e) ∈ c.data → now < e.expiration →
      (k, e) ∈ (l.foldl (resolveStep now) (res0, c)).2.data := by
  intro l
  induction l with
  | nil =>
    intro res0 c k e _ _ _ hmem _
    exact hmem
  | cons id0 rest ih =>
    intro res0 c k e hn hf hd hmem hexp
    simp only [List.foldl_cons]
    cases hg : c.get now id0 with
    | some vo =>
      cases vo with
      | some o =>
        rw [resolveStep_hit now res0 c id0 o hg]
        exact ih _ c k e hn hf hd hmem hexp
      | none =>
        rw [resolveStep_tomb now res0 c id0 hg]
        exact ih _ c k e hn hf hd hmem hexp
    | none =>
      rw [resolveStep_miss now res0 c id0 hg]
      have hgetk : c.get now k = some e.value := by
        rw [ExpiringMap.get_of_mem c now k e hn hmem]
        rw [if_neg (by simp [EEntry.expiredAt]; omega)]
      have hne : k ≠ id0 := by
        intro hc
        rw [hc, hg] at hgetk
        exact absurd hgetk (by simp)
      refine ih _ _ k e (ExpiringMap.keysNodup_insert c now id0 none hn)
        (ExpiringMap.freshAt_insert c now id0 none hd hf) hd ?_ hexp
      exact (ExpiringMap.mem_insert_data c now id0 none (k, e)).mpr
        (Or.inr ⟨hmem, hexp, hne⟩)

/-- The result-building fold preserves the cache invariants and the TTL. -/
theorem resolveStep_fold_wf (now : Nat) :
    ∀ (l : List String) (res0 : List (String × Object))
      (c : ExpiringMap String (Option Object)),
      c.KeysNodup → c.FreshAt now → 0 < c.duration →
      (l.foldl (resolveStep now) (res0, c)).2.KeysNodup
      ∧ (l.foldl (resolveStep now) (res0, c)).2.FreshAt now
      ∧ (l.foldl (resolveStep now) (res0, c)).2.duration = c.duration := by
  intro l
  induction l with
  | nil =>
    intro res0 c hn hf _
    exact ⟨hn, hf, rfl⟩
  | cons id0 rest ih =>
    intro res0 c hn hf hd
    simp only [List.foldl_cons]
    cases hg : c.get now id0 with
    | some vo =>
      cases vo with
      | some o =>
        rw [resolveStep_hit now res0 c id0 o hg]
        exact ih _ c hn hf hd
      | none =>
        rw [resolveStep_tomb now res0 c id0 hg]
        exact ih _ c hn hf hd
    | none =>
      rw [resolveStep_miss now res0 c id0 hg]
      exact ih _ _ (ExpiringMap.keysNodup_insert c now id0 none hn)
        (ExpiringMap.freshAt_insert c now id0 none hd hf) hd

/-- Values visible in the cache before the result-building fold stay
visible unchanged. -/
theorem resolveStep_fold_frame (now : Nat) :
    ∀ (l : List String) (res0 : List (String × Object))
      (c : ExpiringMap String (Option Object)),
      c.KeysNodup → c.FreshAt now → 0 < c.duration →
      ∀ k v, c.get now k = some v →
        (l.foldl (resolveStep now) (res0, c)).2.get now k = some v := by
  intro l
  induction l with
  | nil =>
    intro res0 c _ _ _ k v hv
    exact hv
  | cons id0 rest ih =>
    intro res0 c hn hf hd k v hv
    simp only [List.foldl_cons]
    cases hg : c.get now id0 with
    | some vo =>
      cases vo with
      | some o =>
        rw [resolveStep_hit now res0 c id0 o hg]
        exact ih _ c hn hf hd k v hv
      | none =>
        rw [resolveStep_tomb now res0 c id0 hg]
        exact ih _ c hn hf hd k v hv
    | none =>
      rw [resolveStep_miss now res0 c id0 hg]
      have hne : k ≠ id0 := by
        intro hc
        rw [hc, hg] at hv
        exact absurd hv (by simp)
      refine ih _ _ (ExpiringMap.keysNodup_insert c now id0 none hn)
        (ExpiringMap.freshAt_insert c now id0 none hd hf) hd k v ?_
      rw [ExpiringMap.get_insert_of_ne c now id0 k none hn hf hne]
      exact hv

/-- The result-building fold only appends to the result list. -/
theorem resolveStep_fold_prefix (now : Nat) :
    ∀ (l : List String) (res0 : List (String × Object))
      (c : ExpiringMap String (Option Object)),
      ∃ tail, (l.foldl (resolveStep now) (res0, c)).1 = res0 ++ tail := by
  intro l
  induction l with
  | nil =>
    intro res0 c
    exact ⟨[], by simp⟩
  | cons id0 rest ih =>
    intro res0 c
    simp only [List.foldl_cons]
    cases hg : c.get now id0 with
    | some vo =>
      cases vo with
      | some o =>
        rw [resolveStep_hit now res0 c id0 o hg]
        obtain ⟨tail, htail⟩ := ih (res0 ++ [(o.id, o)]) c
        exact ⟨(o.id, o) :: tail, by rw [htail]; simp⟩
      | none =>
        rw [resolveStep_tomb now res0 c id0 hg]
        exact ih res0 c
    | none =>
      rw [resolveStep_miss now res0 c id0 hg]
      exact ih res0 (c.insert now id0 none)

/-- Every requested id that misses the cache gets a `none` tombstone stored
with expiration `now + duration`. -/
theorem resolveStep_fold_tombstone (now : Nat) :
    ∀ (l : List String) (res0 : List (String × Object))
      (c : ExpiringMap String (Option Object)),
      c.KeysNodup → c.FreshAt now → 0 < c.duration →
      ∀ id ∈ l, c.get now id = none →
        (id, (⟨none, now + c.duration⟩ : EEntry (Option Object)))
          ∈ (l.foldl (resolveStep now) (res0, c)).2.data := by
  intro l
  induction l with
  | nil =>
    intro res0 c _ _ _ id hid _
    simp at hid
  | cons id0 rest ih =>
    intro res0 c hn hf hd id hid hnone
    simp only [List.foldl_cons]
    cases hg : c.get now id0 with
    | some vo =>
      have hne : id ≠ id0 := by
        intro hc
        rw [hc, hg] at hnone
        exact absurd hnone (by simp)
      have hid2 : id ∈ rest := by
        rcases List.mem_cons.mp hid with h | h
        · exact absurd h hne
        · exact h
      cases vo with
      | some o =>
        rw [resolveStep_hit now res0 c id0 o hg]
        exact ih _ c hn hf hd id hid2 hnone
      | none =>
        rw [resolveStep_tomb now res0 c id0 hg]
        exact ih _ c hn hf hd id hid2 hnone
    | none =>
      rw [resolveStep_miss now res0 c id0 hg]
      have hn2 := ExpiringMap.keysNodup_insert c now id0 none hn
      have hf2 := ExpiringMap.freshAt_insert c now id0 none hd hf
      by_cases hide : id = id0
      · subst hide
        apply resolveStep_fold_entry now rest res0 _ id _ hn2 hf2 hd
        · exact (ExpiringMap.mem_insert_data c now id none _).mpr (Or.inl rfl)
        · show now < now + c.duration
          omega
      · have hid2 : id ∈ rest := by
          rcases List.mem_cons.mp hid with h | h
          · exact absurd h hide
          · exact h
        have hnone2 : (c.insert now id0 none).get now id = none := by
          rw [ExpiringMap.get_insert_of_ne c now id0 id none hn hf hide]
          exact hnone
        exact ih _ _ hn2 hf2 hd id hid2 hnone2

/-- Every requested id whose cached value is a resolved object contributes
that object, keyed by its id, to the result map. -/
theorem resolveStep_fold_covers (now : Nat) :
    ∀ (l : List String) (res0 : List (String × Object))
      (c : ExpiringMap String (Option Object)),
      c.KeysNodup → c.FreshAt now → 0 < c.duration →
      ∀ id ∈ l, ∀ o, c.get now id = some (some o) →
        (o.id, o) ∈ (l.foldl (resolveStep now) (res0, c)).1 := by
  intro l
  induction l with
  | nil =>
    intro res0 c _ _ _ id hid _ _
    simp at hid
  | cons id0 rest ih =>
    intro res0 c hn hf hd id hid o ho
    simp only [List.foldl_cons]
    cases hg : c.get now id0 with
    | some vo =>
      cases vo with
      | some o0 =>
        rw [resolveStep_hit now res0 c id0 o0 hg]
        by_cases hide : id = id0
        · have hoo : o = o0 := by
            rw [hide, hg] at ho
            simpa using ho.symm
          subst hoo
          obtain ⟨tail, htail⟩ := resolveStep_fold_prefix now rest (res0 ++ [(o.id, o)]) c
          rw [htail]
          simp
        · have hid2 : id ∈ rest := by
            rcases List.mem_cons.mp hid with h | h
            · exact absurd h hide
            · exact h
          exact ih _ c hn hf hd id hid2 o ho
      | none =>
        rw [resolveStep_tomb now res0 c id0 hg]
        have hide : id ≠ id0 := by
          intro hc
          rw [hc, hg] at ho
          simp at ho
        have hid2 : id ∈ rest := by
          rcases List.mem_cons.mp hid with h | h
          · exact absurd h hide
          · exact h
        exact ih _ c hn hf hd id hid2 o ho
    | none =>
      rw [resolveStep_miss now res0 c id0 hg]
      have hide : id ≠ id0 := by
        intro hc
        rw [hc, hg] at ho
        exact absurd ho (by simp)
      have hid2 : id ∈ rest := by
        rcases List.mem_cons.mp hid with h | h
        · exact absurd h hide
        · exact h
      refine ih _ _ (ExpiringMap.keysNodup_insert c now id0 none hn)
        (ExpiringMap.freshAt_insert c now id0 none hd hf) hd id hid2 o ?_
      rw [ExpiringMap.get_insert_of_ne c now id0 id none hn hf hide]
      exact ho

/-- Everything in the result map beyond the seed comes from a requested id
whose cached value resolved to the entry's object, keyed by that object's
id. -/
theorem resolveStep_fold_sound (now : Nat) :
    ∀ (l : List String) (res0 : List (String × Object))
      (c : ExpiringMap String (Option Object)),
      c.KeysNodup → c.FreshAt now → 0 < c.duration →
      ∀ p ∈ (l.foldl (resolveStep now) (res0, c)).1,
        p ∈ res0 ∨ ∃ id ∈ l, c.get now id = some (some p.2) ∧ p.1 = p.2.id := by
  intro l
  induction l with
  | nil =>
    intro res0 c _ _ _ p hp
    exact Or.inl hp
  | cons id0 rest ih =>
    intro res0 c hn hf hd p hp
    simp only [List.foldl_cons] at hp
    cases hg : c.get now id0 with
    | some vo =>
      cases vo with
      | some o0 =>
        rw [resolveStep_hit now res0 c id0 o0 hg] at hp
        rcases ih _ c hn hf hd p hp with hp2 | ⟨id, hid, hget, hkey⟩
        · rcases List.mem_append.mp hp2 with hp3 | hp3
          · exact Or.inl hp3
          · have hpo : p = (o0.id, o0) := by simpa using hp3
            refine Or.inr ⟨id0, List.mem_cons_self id0 rest, ?_, ?_⟩
            · rw [hpo]
              exact hg
            · rw [hpo]
        · exact Or.inr ⟨id, List.mem_cons_of_mem id0 hid, hget, hkey⟩
      | none =>
        rw [resolveStep_tomb now res0 c id0 hg] at hp
        rcases ih _ c hn hf hd p hp with hp2 | ⟨id, hid, hget, hkey⟩
        · exact Or.inl hp2
        · exact Or.inr ⟨id, List.mem_cons_of_mem id0 hid, hget, hkey⟩
    | none =>
      rw [resolveStep_miss now res0 c id0 hg] at hp
      rcases ih _ _ (ExpiringMap.keysNodup_insert c now id0 none hn)
          (ExpiringMap.freshAt_insert c now id0 none hd hf) hd p hp
        with hp2 | ⟨id, hid, hget, hkey⟩
      · exact Or.inl hp2
      · have hide : id ≠ id0 := by
          intro hc
          rw [hc] at hget
          rw [ExpiringMap.get_insert_self] at hget
          by_cases hlt : now + c.duration < now
          · omega
          · rw [if_neg hlt] at hget
            simp at hget
        rw [ExpiringMap.get_insert_of_ne c now id0 id none hn hf hide] at hget
        exact Or.inr ⟨id, List.mem_cons_of_mem id0 hid, hget, hkey⟩

/-- An entry whose expiration has not passed is not expired. -/
theorem eentry_not_expired {V : Type} (v : V) (e t : Nat) (h : t ≤ e) :
    ¬ ((⟨v, e⟩ : EEntry V).expiredAt t = true) := by
  show ¬ (decide (e < t) = true)
  simp only [decide_eq_true_eq]
  omega

/-! ## C5: batch directory lookup -/

/-- C5: `get_objects_by_ids` partitions the requested ids into cached and
not-yet-cached, issues directory calls only for the not-yet-cached ids in
chunks of at most 50 ids per call, inserts every resolved object into the
cache keyed by its id plus a `none` tombstone for every requested id absent
from all chunk responses (visible as `some none`); consequently a resolved
id appears in the returned map, an id the directory does not recognize
yields no entry in the returned map, and requesting the same id in a second
run within the cache TTL issues at most one underlying directory call for
that id across the two runs. -/
theorem claim_c5_get_objects_by_ids (dir : String → Option Object) (now nowLater : Nat)
    (cache : ExpiringMap String (Option Object)) (ids : List String)
    (hdir : ∀ id o, dir id = some o → o.id = id)
    (hids : ids.Nodup)
    (hnodup : cache.KeysNodup) (hfresh : cache.FreshAt now) (hdur : 0 < cache.duration)
    (hcoh : ∀ k o, cache.get now k = some (some o) → o.id = k)
    (_hlater : now ≤ nowLater) (httl : nowLater ≤ now + cache.duration) :
    ((get_objects_by_ids dir now cache ids).2.2.flatten
        = ids.filter (fun id => !(cache.containsKey now id))
      ∧ ∀ c ∈ (get_objects_by_ids dir now cache ids).2.2, c.length ≤ 50)
    ∧ (∀ id ∈ ids, cache.containsKey now id = false →
        (∀ o, dir id = some o →
          (get_objects_by_ids dir now cache ids).2.1.get now id = some (some o)
          ∧ (id, o) ∈ (get_objects_by_ids dir now cache ids).1)
        ∧ (dir id = none →
          (get_objects_by_ids dir now cache ids).2.1.get now id = some none
          ∧ ∀ p ∈ (get_objects_by_ids dir now cache ids).1, p.1 ≠ id))
    ∧ (∀ id ∈ ids,
        (get_objects_by_ids dir now cache ids).2.2.flatten.count id
        + (get_objects_by_ids dir nowLater
            ((get_objects_by_ids dir now cache ids).2.1) ids).2.2.flatten.count id ≤ 1) := by
  have hmain : get_objects_by_ids dir now cache ids
      = ((ids.foldl (resolveStep now)
            ([], (((ids.filter (fun id => !(cache.containsKey now id))).filterMap dir).foldl
                (cacheObject now) cache))).1,
         (ids.foldl (resolveStep now)
            ([], (((ids.filter (fun id => !(cache.containsKey now id))).filterMap dir).foldl
                (cacheObject now) cache))).2,
         chunksOf 50 (ids.filter (fun id => !(cache.containsKey now id)))) := by
    unfold get_objects_by_ids
    dsimp only
    rw [foldl_chunks, chunksOf_join]
  rw [hmain]
  dsimp only
  set tu := ids.filter (fun id => !(cache.containsKey now id)) with htudef
  set R := tu.filterMap dir with hRdef
  set cache1 := R.foldl (cacheObject now) cache with hc1def
  set final := ids.foldl (resolveStep now) ([], cache1) with hfinaldef
  have htund : tu.Nodup := hids.filter _
  have hRnodup : (R.map (fun o => o.id)).Nodup := by
    rw [hRdef, filterMap_ids dir hdir tu]
    exact htund.filter _
  have hn1 : cache1.KeysNodup := (cacheObject_fold_wf now R cache hnodup hfresh hdur).1
  have hf1 : cache1.FreshAt now := (cacheObject_fold_wf now R cache hnodup hfresh hdur).2.1
  have hd1eq : cache1.duration = cache.duration :=
    (cacheObject_fold_wf now R cache hnodup hfresh hdur).2.2
  have hd1 : 0 < cache1.duration := by rw [hd1eq]; exact hdur
  have hnotR_of_cached : ∀ id, cache.containsKey now id = true →
      id ∉ R.map (fun o => o.id) := by
    intro id hck hmem
    rw [hRdef, filterMap_ids dir hdir tu] at hmem
    rw [List.mem_filter] at hmem
    have h1 := hmem.1
    rw [htudef, List.mem_filter] at h1
    rw [hck] at h1
    simp at h1
  have hnotR_of_none : ∀ id, dir id = none → id ∉ R.map (fun o => o.id) := by
    intro id hdnone hmem
    rw [hRdef, filterMap_ids dir hdir tu] at hmem
    rw [List.mem_filter] at hmem
    rw [hdnone] at hmem
    simp at hmem
  have hget_uncached : ∀ id, cache.containsKey now id = false →
      cache.get now id = none := by
    intro id hck
    unfold ExpiringMap.containsKey at hck
    cases h : cache.get now id with
    | none => rfl
    | some v => rw [h] at hck; simp at hck
  have hcase_cached : ∀ id, cache.containsKey now id = true →
      cache1.get now id = cache.get now id := by
    intro id hck
    exact cacheObject_fold_frame now R cache hnodup hfresh hdur id (hnotR_of_cached id hck)
  have hcase_B : ∀ id ∈ ids, ∀ o, cache.containsKey now id = false → dir id = some o →
      cache1.get now id = some (some o)
      ∧ (id, (⟨some o, now + cache.duration⟩ : EEntry (Option Object))) ∈ cache1.data := by
    intro id hin o hck hdirid
    have hidtu : id ∈ tu := by
      rw [htudef, List.mem_filter]
      exact ⟨hin, by rw [hck]; rfl⟩
    have hoR : o ∈ R := by
      rw [hRdef]
      exact List.mem_filterMap.mpr ⟨id, hidtu, hdirid⟩
    have hoid : o.id = id := hdir id o hdirid
    have hentry := cacheObject_fold_covers now R cache hdur hRnodup o hoR
    rw [hoid] at hentry
    refine ⟨?_, hentry⟩
    rw [ExpiringMap.get_of_mem cache1 now id ⟨some o, now + cache.duration⟩ hn1 hentry]
    rw [if_neg (eentry_not_expired (some o) (now + cache.duration) now (by omega))]
  have hcase_C : ∀ id, cache.containsKey now id = false → dir id = none →
      cache1.get now id = none := by
    intro id hck hdnone
    have h1 : cache1.get now id = cache.get now id :=
      cacheObject_fold_frame now R cache hnodup hfresh hdur id (hnotR_of_none id hdnone)
    rw [h1]
    exact hget_uncached id hck
  have hn2 : final.2.KeysNodup := (resolveStep_fold_wf now ids [] cache1 hn1 hf1 hd1).1
  have hf2 : final.2.FreshAt now := (resolveStep_fold_wf now ids [] cache1 hn1 hf1 hd1).2.1
  have hd2eq : final.2.duration = cache1.duration :=
    (resolveStep_fold_wf now ids [] cache1 hn1 hf1 hd1).2.2
  have hafter : ∀ id ∈ ids, cache.containsKey now id = false →
      ∃ v, (id, (⟨v, now + cache.duration⟩ : EEntry (Option Object))) ∈ final.2.data := by
    intro id hin hck
    cases hdid : dir id with
    | some o =>
      refine ⟨some o, ?_⟩
      exact resolveStep_fold_entry now ids [] cache1 id ⟨some o, now + cache.duration⟩
        hn1 hf1 hd1 (hcase_B id hin o hck hdid).2 (by show now < now + cache.duration; omega)
    | none =>
      refine ⟨none, ?_⟩
      have ht := resolveStep_fold_tombstone now ids [] cache1 hn1 hf1 hd1 id hin
        (hcase_C id hck hdid)
      rw [hd1eq] at ht
      exact ht
  refine ⟨⟨chunksOf_join 50 tu, fun c hc => chunksOf_length_le 50 (by omega) tu c hc⟩, ?_, ?_⟩
  · intro id hin hck
    constructor
    · intro o hdirid
      constructor
      · exact resolveStep_fold_frame now ids [] cache1 hn1 hf1 hd1 id (some o)
          (hcase_B id hin o hck hdirid).1
      · have hoid := hdir id o hdirid
        have hres := resolveStep_fold_covers now ids [] cache1 hn1 hf1 hd1 id hin o
          (hcase_B id hin o hck hdirid).1
        rw [hoid] at hres
        exact hres
    · intro hdnone
      constructor
      · have ht := resolveStep_fold_tombstone now ids [] cache1 hn1 hf1 hd1 id hin
          (hcase_C id hck hdnone)
        have hg := ExpiringMap.get_of_mem final.2 now id ⟨none, now + cache1.duration⟩ hn2 ht
        rw [hg, if_neg (eentry_not_expired (none : Option Object) (now + cache1.duration) now (by omega))]
      · intro p hp hpid
        rcases resolveStep_fold_sound now ids [] cache1 hn1 hf1 hd1 p hp with
          hempty | ⟨id2, hid2, hget2, hkey⟩
        · simp at hempty
        · have hp2id : p.2.id = id := by rw [← hkey]; exact hpid
          cases hck2 : cache.containsKey now id2 with
          | true =>
            have hgid2 : cache.get now id2 = some (some p.2) := by
              rw [← hcase_cached id2 hck2]
              exact hget2
            have hco := hcoh id2 p.2 hgid2
            have hided : id2 = id := by rw [← hco, hp2id]
            rw [hided, hck] at hck2
            simp at hck2
          | false =>
            cases hdid2 : dir id2 with
            | some o2 =>
              have hB := (hcase_B id2 hid2 o2 hck2 hdid2).1
              have heq : some (some p.2) = some (some o2) := by rw [← hget2, hB]
              have hpo : p.2 = o2 := by simpa using heq
              have ho2id : o2.id = id2 := hdir id2 o2 hdid2
              have hided : id2 = id := by rw [← ho2id, ← hpo, hp2id]
              rw [hided, hdnone] at hdid2
              exact absurd hdid2 (by simp)
            | none =>
              have hC := hcase_C id2 hck2 hdid2
              rw [hC] at hget2
              exact absurd hget2 (by simp)
  · intro id hin
    have hflat1 : (chunksOf 50 tu).flatten = tu := chunksOf_join 50 tu
    have hq2 : (get_objects_by_ids dir nowLater final.2 ids).2.2.flatten
        = ids.filter (fun id => !(final.2.containsKey nowLater id)) :=
      chunksOf_join 50 _
    rw [hflat1, hq2]
    cases hck : cache.containsKey now id with
    | true =>
      have hc1 : tu.count id = 0 := by
        rw [List.count_eq_zero]
        intro hmem
        rw [htudef, List.mem_filter] at hmem
        rw [hck] at hmem
        simp at hmem
      have hc2 : (ids.filter (fun id => !(final.2.containsKey nowLater id))).count id ≤ 1 :=
        (List.nodup_iff_count_le_one.mp (hids.filter _)) id
      omega
    | false =>
      obtain ⟨v, hv⟩ := hafter id hin hck
      have hvis : final.2.get nowLater id = some v := by
        rw [ExpiringMap.get_of_mem final.2 nowLater id ⟨v, now + cache.duration⟩ hn2 hv]
        rw [if_neg (eentry_not_expired v (now + cache.duration) nowLater (by omega))]
      have hck2 : final.2.containsKey nowLater id = true := by
        unfold ExpiringMap.containsKey
        rw [hvis]
        rfl
      have hc2 : (ids.filter (fun id => !(final.2.containsKey nowLater id))).count id = 0 := by
        rw [List.count_eq_zero]
        intro hmem
        rw [List.mem_filter] at hmem
        rw [hck2] at hmem
        simp at hmem
      have hc1 : tu.count id ≤ 1 := (List.nodup_iff_count_le_one.mp htund) id
      omega

/-- C5 witness: requesting `x` (recognized) and `y` (unrecognized) against
an empty cache queries exactly those two ids, returns `x`'s object keyed by
`x` and nothing for `y`, caches `x`'s object and a tombstone for `y`, and a
second request 300 seconds later issues no further call for `x`. -/
theorem claim_c5_get_objects_by_ids_witness :
    (["x", "y"] : List String).Nodup
    ∧ exEmptyCache.KeysNodup
    ∧ 0 < exEmptyCache.duration
    ∧ (300 : Nat) ≤ 0 + exEmptyCache.duration
    ∧ exEmptyCache.containsKey 0 "x" = false
    ∧ exDir "x" = some exObjX
    ∧ exDir "y" = none
    ∧ (get_objects_by_ids exDir 0 exEmptyCache ["x", "y"]).2.2.flatten
        = (["x", "y"] : List String).filter (fun id => !(exEmptyCache.containsKey 0 id))
    ∧ (get_objects_by_ids exDir 0 exEmptyCache ["x", "y"]).2.1.get 0 "x" = some (some exObjX)
    ∧ ("x", exObjX) ∈ (get_objects_by_ids exDir 0 exEmptyCache ["x", "y"]).1
    ∧ (get_objects_by_ids exDir 0 exEmptyCache ["x", "y"]).2.1.get 0 "y" = some none
    ∧ (∀ p ∈ (get_objects_by_ids exDir 0 exEmptyCache ["x", "y"]).1, p.1 ≠ "y")
    ∧ (get_objects_by_ids exDir 0 exEmptyCache ["x", "y"]).2.2.flatten.count "x"
        + (get_objects_by_ids exDir 300
            ((get_objects_by_ids exDir 0 exEmptyCache ["x", "y"]).2.1)
            ["x", "y"]).2.2.flatten.count "x" ≤ 1 := by
  have hdir : ∀ id o, exDir id = some o → o.id = id := by
    intro id o h
    unfold exDir at h
    by_cases hx : id = "x"
    · rw [if_pos hx] at h
      have hobj : o = exObjX := by
        have := h.symm
        simpa using this
      rw [hobj, hx]
      rfl
    · rw [if_neg hx] at h
      exact absurd h (by simp)
  have hnodup : exEmptyCache.KeysNodup := by
    unfold ExpiringMap.KeysNodup exEmptyCache ExpiringMap.new
    simp
  have hfresh : exEmptyCache.FreshAt 0 := by
    intro e he
    simp [exEmptyCache, ExpiringMap.new] at he
  have hcoh : ∀ k o, exEmptyCache.get 0 k = some (some o) → o.id = k := by
    intro k o h
    unfold exEmptyCache ExpiringMap.new ExpiringMap.get at h
    simp at h
  have h := claim_c5_get_objects_by_ids exDir 0 300 exEmptyCache ["x", "y"] hdir (by decide)
    hnodup hfresh (by decide) hcoh (by decide) (by decide)
  have hx := (h.2.1 "x" (by decide) (by decide)).1 exObjX rfl
  have hy := (h.2.1 "y" (by decide) (by decide)).2 rfl
  exact ⟨by decide, hnodup, by decide, by decide, by decide, rfl, rfl,
    h.1.1, hx.1, hx.2, hy.1, hy.2, h.2.2 "x" (by decide)⟩

end AzPim
